import Mathlib

/-!
Verification of the sudoku-rs core (src/lib.rs) against its specification.

The embedding mirrors the Rust source:
* `Cell` models the `u16` candidate bitmask (`digits < 2 ^ 16` is the type
  invariant of `u16`); bit `d` set means digit `d` is still possible.
* `Sudoku` models `[[Cell; 9]; 9]` as a function `Fin 9 → Fin 9 → Cell`.
* Loops are embedded as fuel-indexed recursions; theorems establish that a
  concrete fuel bound always suffices, so termination is a proved property
  rather than an assumption.
-/

namespace SudokuRs

/-- The set of bit positions (below 16) set in a mask; the semantic view of a
`u16` candidate bitmask used throughout the proofs. -/
def maskBits (n : Nat) : Finset Nat :=
  (Finset.range 16).filter (fun i => n.testBit i)

/-- Model of `struct Cell { digits: u16 }`. -/
structure Cell where
  digits : Nat
  isLt : digits < 65536

instance : DecidableEq Cell :=
  fun a b =>
    if h : a.digits = b.digits then
      .isTrue (by cases a; cases b; simpa using h)
    else
      .isFalse (by intro hh; cases hh; exact h rfl)

namespace Cell

/-- Model of `Cell::from_digit`: `if d == 0 || d > 9 { None } else { Some(1 << d) }`. -/
def from_digit (d : Nat) : Option Cell :=
  if h : d = 0 ∨ d > 9 then none
  else some ⟨1 <<< d, by
    have h9 : d ≤ 9 := by omega
    have he : (1 : Nat) <<< d = 2 ^ d := by simp [Nat.shiftLeft_eq]
    rw [he]
    calc 2 ^ d ≤ 2 ^ 9 := Nat.pow_le_pow_right (by omega) h9
    _ < 65536 := by norm_num⟩

/-- Model of `Cell::all_digits`: the mask `0b11_1111_1110`. -/
def all_digits : Cell := ⟨1022, by norm_num⟩

/-- Model of `u16::count_ones` on the mask: the number of set bits. -/
def len (c : Cell) : Nat :=
  ((Finset.range 16).filter (fun i => c.digits.testBit i)).card

/-- Model of `Cell::is_empty`: `len() == 0`. -/
def is_empty (c : Cell) : Bool := c.len == 0

/-- Model of `u16::leading_zeros` (16 minus one minus the highest set bit;
16 when the mask is zero). -/
def leadingZeros16 (n : Nat) : Nat :=
  match (List.range 16).reverse.find? (fun i => n.testBit i) with
  | none => 16
  | some i => 15 - i

/-- Model of `Cell::first_digit`: `15 - digits.leading_zeros()`.  On an empty
mask the Rust subtraction underflows (a precondition violation per the spec);
Nat subtraction truncates to 0 there, and no claim depends on that case. -/
def first_digit (c : Cell) : Nat :=
  15 - leadingZeros16 c.digits

/-- Model of `Cell::has_digit`: `(digits >> d) & 1 == 1`. -/
def has_digit (c : Cell) (d : Nat) : Bool :=
  (c.digits >>> d) &&& 1 == 1

/-- Model of `Cell::remove_digit`: `digits &= !(1 << d)` (complement taken in
`u16`, i.e. xor with `0xFFFF`). -/
def remove_digit (c : Cell) (d : Nat) : Cell :=
  ⟨c.digits &&& ((1 <<< d) ^^^ 65535), Nat.lt_of_le_of_lt Nat.and_le_left c.isLt⟩

end Cell

/-- Model of `struct Sudoku { cells: [[Cell; 9]; 9] }`. -/
structure Sudoku where
  cells : Fin 9 → Fin 9 → Cell

instance : DecidableEq Sudoku :=
  fun a b =>
    if h : ∀ r c, a.cells r c = b.cells r c then
      .isTrue (by
        cases a; cases b
        simp only [Sudoku.mk.injEq]
        funext r c
        exact h r c)
    else
      .isFalse (by intro hh; cases hh; exact h (fun _ _ => rfl))

/-- Coerce a (provably in-range) `usize` index to `Fin 9`. -/
def fin9 (n : Nat) : Fin 9 := ⟨n % 9, Nat.mod_lt _ (by omega)⟩

/-- Read `cells[r][c]`; every call site in the source uses in-range indices. -/
def cellAt (s : Sudoku) (r c : Nat) : Cell :=
  s.cells (fin9 r) (fin9 c)

/-- Write `cells[r][c] = v`, producing the derived grid (all grid updates in
the source act on a fresh clone). -/
def setAt (s : Sudoku) (r c : Nat) (v : Cell) : Sudoku :=
  ⟨fun r' c' => if r' = fin9 r ∧ c' = fin9 c then v else s.cells r' c'⟩

/-- The 81 coordinates in row-major order, as iterated by the source
(`for r in 0..9 { for c in 0..9 { ... } }`). -/
def positions : List (Nat × Nat) :=
  (List.range 9).flatMap (fun r => (List.range 9).map (fun c => (r, c)))

/-- The coordinates of row `i` in index order (`Sudoku::row`). -/
def rowPositions (i : Nat) : List (Nat × Nat) :=
  (List.range 9).map (fun c => (i, c))

/-- The coordinates of column `i` in index order (`Sudoku::col`). -/
def colPositions (i : Nat) : List (Nat × Nat) :=
  (List.range 9).map (fun r => (r, i))

/-- The coordinates of the 3×3 quadrant with origin `(qr, qc)` in the fixed
row-major order used by `Sudoku::quad`. -/
def quadPositions (qr qc : Nat) : List (Nat × Nat) :=
  (List.range 9).map (fun i => (qr + i / 3, qc + i % 3))

/-- Model of `Sudoku::quad_of`: the quadrant origin. -/
def quad_of (r c : Nat) : Nat × Nat := (r / 3 * 3, c / 3 * 3)

/-- The 9 cells of row `r` (`Sudoku::row`). -/
def rowCells (s : Sudoku) (r : Nat) : List Cell :=
  (rowPositions r).map (fun rc => cellAt s rc.1 rc.2)

/-- The 9 cells of column `c` (`Sudoku::col`). -/
def colCells (s : Sudoku) (c : Nat) : List Cell :=
  (colPositions c).map (fun rc => cellAt s rc.1 rc.2)

/-- The 9 cells of the quadrant containing `(r, c)` (`Sudoku::quad`, which
first normalises through `quad_of`). -/
def quadCells (s : Sudoku) (r c : Nat) : List Cell :=
  (quadPositions (quad_of r c).1 (quad_of r c).2).map (fun rc => cellAt s rc.1 rc.2)

/-- Model of the `has_no_duplicates` closure in `Sudoku::is_solved`: remove
each cell's `first_digit` from the full domain and test emptiness. -/
def has_no_duplicates (cells : List Cell) : Bool :=
  (cells.foldl (fun m c => m.remove_digit c.first_digit) Cell.all_digits).is_empty

/-- Model of `Sudoku::is_solved`. -/
def is_solved (s : Sudoku) : Bool :=
  (positions.all (fun rc => (cellAt s rc.1 rc.2).len == 1))
    && ((List.range 9).all (fun r => has_no_duplicates (rowCells s r)))
    && ((List.range 9).all (fun c => has_no_duplicates (colCells s c)))
    && ((List.range 9).all (fun i => has_no_duplicates (quadCells s (i / 3 * 3) (i % 3 * 3))))

/-- Model of `char::to_digit(10)`: the numeric value of an ASCII decimal
digit, `none` for any other character. -/
def charToDigit10 (ch : Char) : Option Nat :=
  if ch.toNat ≥ 48 ∧ ch.toNat ≤ 57 then some (ch.toNat - 48) else none

/-- The grid all of whose cells are still zero-initialised, the starting
value `[[Cell { digits: 0 }; 9]; 9]` of `Sudoku::from_line`. -/
def zeroGrid : Sudoku := ⟨fun _ _ => ⟨0, by norm_num⟩⟩

/-- One step of the `from_line` loop: store the cell decoded from character
`ch` at linear index `i`, failing on any character that is neither a dot nor
a digit in 1–9. -/
def fromLineStep (s : Sudoku) (ic : Nat × Char) : Option Sudoku :=
  let (i, ch) := ic
  if ch = '.' then some (setAt s (i / 9) (i % 9) Cell.all_digits)
  else do
    let d ← charToDigit10 ch
    let cl ← Cell.from_digit d
    some (setAt s (i / 9) (i % 9) cl)

/-- Model of `Sudoku::from_line` (the input is taken as its character list). -/
def from_line (line : List Char) : Option Sudoku :=
  if line.length ≠ 81 then none
  else line.enum.foldlM fromLineStep zeroGrid

/-- Model of `Sudoku::to_line`: one character per cell in row-major order;
a singleton cell prints its digit, anything else prints a dot. -/
def to_line (s : Sudoku) : List Char :=
  positions.map (fun rc =>
    let c := cellAt s rc.1 rc.2
    if c.len == 1 then (Nat.repr c.first_digit).toList.headD '.' else '.')

/-- Model of the `remove_d_at` closure in `Sudoku::without_conflicts`: skip
the source cell itself; otherwise clear digit `d` at `(nr, nc)` in the grid
under construction, record whether the cell now differs from `self`, and
fail if the cell became empty. -/
def remove_d_at (self : Sudoku) (r c d : Nat) (st : Sudoku × Bool) (nr nc : Nat) :
    Option (Sudoku × Bool) :=
  if nr = r ∧ nc = c then some st
  else
    let cl := (cellAt st.1 nr nc).remove_digit d
    let changed := st.2 || !(cl = cellAt self nr nc : Bool)
    if cl.is_empty then none else some (setAt st.1 nr nc cl, changed)

/-- The body of `Sudoku::without_conflicts` for one scanned coordinate:
an empty cell aborts, a singleton removes its digit from its row, column and
quadrant (in the source's interleaved order), anything else is skipped. -/
def conflictStep (self : Sudoku) (st : Sudoku × Bool) (rc : Nat × Nat) :
    Option (Sudoku × Bool) :=
  let (r, c) := rc
  let cell := cellAt self r c
  if cell.len = 0 then none
  else if cell.len = 1 then
    let d := cell.first_digit
    let q := quad_of r c
    (List.range 9).foldlM (fun st i => do
      let st ← remove_d_at self r c d st r i
      let st ← remove_d_at self r c d st i c
      remove_d_at self r c d st (q.1 + i / 3) (q.2 + i % 3)) st
  else some st

/-- Model of `Sudoku::without_conflicts`. -/
def without_conflicts (self : Sudoku) : Option (Sudoku × Bool) :=
  positions.foldlM (conflictStep self) (self, false)

/-- The scan of `Sudoku::find_unambiguity`: walk the group looking for the
unique non-fixed cell carrying digit `d`; a fixed cell with `d`, or a second
carrier, ends the scan with no result (the `break` with `digit_ix = None`). -/
def scan_digit (s : Sudoku) (d : Nat) :
    List (Nat × Nat) → Option (Nat × Nat) → Option (Nat × Nat)
  | [], acc => acc
  | rc :: rest, acc =>
    if !(cellAt s rc.1 rc.2).has_digit d then scan_digit s d rest acc
    else if (cellAt s rc.1 rc.2).len = 1 then none
    else
      match acc with
      | none => scan_digit s d rest (some rc)
      | some _ => none

/-- Model of `Sudoku::find_unambiguity`: force the found cell to the
singleton `{d}` (the `Cell::from_digit(d).unwrap()`, which cannot fail since
every caller passes `d` in 1..=9) and report whether a change was made. -/
def find_unambiguity (s : Sudoku) (d : Nat) (rng : List (Nat × Nat)) : Sudoku × Bool :=
  match scan_digit s d rng none with
  | some rc => (setAt s rc.1 rc.2 ((Cell.from_digit d).getD Cell.all_digits), true)
  | none => (s, false)

/-- One `(i, d)` step of `Sudoku::find_unambiguities`: row `i`, then column
`i`, then quadrant `i`, each time or-ing the change flag. -/
def fu_step (st : Sudoku × Bool) (i d : Nat) : Sudoku × Bool :=
  let p1 := find_unambiguity st.1 d (rowPositions i)
  let st1 := (p1.1, p1.2 || st.2)
  let p2 := find_unambiguity st1.1 d (colPositions i)
  let st2 := (p2.1, p2.2 || st1.2)
  let p3 := find_unambiguity st2.1 d (quadPositions (i / 3 * 3) (i % 3 * 3))
  (p3.1, p3.2 || st2.2)

/-- Model of `Sudoku::find_unambiguities` (the source mutates `self` in
place and returns the change flag; the model returns both). -/
def find_unambiguities (s : Sudoku) : Sudoku × Bool :=
  (List.range 9).foldl
    (fun st i => (List.range' 1 9).foldl (fun st d => fu_step st i d) st)
    (s, false)

/-- Model of `Sudoku::simplified`. -/
def simplified (g : Sudoku) : Option (Sudoku × Bool) := do
  let (s, changed) ← without_conflicts g
  let p := find_unambiguities s
  some (p.1, p.2 || changed)

/-- The total candidate count of a grid, the measure that shrinks strictly
with every changed propagation round. -/
def totalLen (g : Sudoku) : Nat :=
  ∑ r : Fin 9, ∑ c : Fin 9, (g.cells r c).len

/-- The `loop { simplified }` of `SolutionsIter::next`, fuel-indexed:
`none` means the fuel ran out, `some none` that propagation found a
contradiction, `some (some s)` that it settled at `s`. -/
def simplify_loop : Nat → Sudoku → Option (Option Sudoku)
  | 0, _ => none
  | fuel + 1, g =>
    match simplified g with
    | none => some none
    | some (s, changed) => if changed then simplify_loop fuel s else some (some s)

/-- Propagation run to its fixpoint.  `totalLen g + 1` rounds always suffice
(proved below), so the fuel-exhaustion branch is dead code. -/
def fixpoint (g : Sudoku) : Option Sudoku :=
  match simplify_loop (totalLen g + 1) g with
  | none => none
  | some r => r

/-- The branch-candidate list of `SolutionsIter::next`: all cells with more
than one candidate, with their coordinates, in row-major order. -/
def branch_candidates (s : Sudoku) : List (Nat × Nat × Cell) :=
  (positions.map (fun rc => (rc.1, rc.2, cellAt s rc.1 rc.2))).filter
    (fun x => 1 < x.2.2.len)

/-- Model of `.min_by_key(|(_, _, cell)| cell.len())`: the first element of
minimal key (Rust's `min_by_key` keeps the first of equally minimal
elements). -/
def branchCell (s : Sudoku) : Option (Nat × Nat × Cell) :=
  (branch_candidates s).foldl
    (fun acc x =>
      match acc with
      | none => some x
      | some a => if x.2.2.len < a.2.2.len then some x else some a)
    none

/-- The grid pushed second (explored first): the branch cell forced to the
singleton of its representative digit.  The `unwrap` on `from_digit` cannot
fail on well-formed grids; the fallback keeps the model total. -/
def fixedChild (s : Sudoku) (r c : Nat) (cell : Cell) : Sudoku :=
  setAt s r c ((Cell.from_digit cell.first_digit).getD cell)

/-- The grid pushed first (explored second): the branch cell's domain with
its representative digit removed. -/
def excludedChild (s : Sudoku) (r c : Nat) (cell : Cell) : Sudoku :=
  setAt s r c (cell.remove_digit cell.first_digit)

/-- Model of `SolutionsIter::next`, fuel-indexed over loop iterations.  The
pending stack is a list whose head is the top (`Vec::pop` takes the head).
`none` means the fuel ran out, `some none` that the stack emptied (iterator
exhausted), `some (some (s, rest))` that `s` was yielded with `rest`
remaining.  The impossible empty `min_by_key` (its `unwrap` panics in Rust;
the case is proved unreachable on well-formed input below) is mapped to
exhaustion to keep the model total. -/
def nextFuel : Nat → List Sudoku → Option (Option (Sudoku × List Sudoku))
  | 0, _ => none
  | _ + 1, [] => some none
  | fuel + 1, g :: rest =>
    match fixpoint g with
    | none => nextFuel fuel rest
    | some s =>
      if is_solved s then some (some (s, rest))
      else
        match branchCell s with
        | none => some none
        | some (r, c, cell) =>
          nextFuel fuel (fixedChild s r c cell :: excludedChild s r c cell :: rest)

/-- The termination measure of the search: each pending grid weighs
`3 ^ totalLen`; every loop iteration of `next` strictly decreases it. -/
def stackMeasure (stack : List Sudoku) : Nat :=
  (stack.map (fun g => 3 ^ totalLen g)).sum

/-- One `next()` call on the iterator state.  `stackMeasure stack + 1` loop
iterations always suffice (proved below). -/
def next_solution (stack : List Sudoku) : Option (Sudoku × List Sudoku) :=
  match nextFuel (stackMeasure stack + 1) stack with
  | none => none
  | some r => r

/-- Draining the iterator, fuel-indexed over `next()` calls; `none` means
the fuel ran out, `some l` that the iterator was exhausted after yielding
exactly `l`. -/
def solutionsFuel : Nat → List Sudoku → Option (List Sudoku)
  | 0, _ => none
  | fuel + 1, stack =>
    match next_solution stack with
    | none => some []
    | some (s, rest) => (solutionsFuel fuel rest).map (fun l => s :: l)

/-- Model of `Sudoku::solutions`, as the (finite) list of all yielded grids
in order. -/
def solutions (g : Sudoku) : List Sudoku :=
  (solutionsFuel (stackMeasure [g] + 1) [g]).getD []

/-- Model of `Sudoku::first_solution`: `self.solutions().next()`. -/
def first_solution (g : Sudoku) : Option Sudoku :=
  (next_solution [g]).map (fun p => p.1)

/-- The fully open grid `[[Cell::all_digits(); 9]; 9]` that seeds the
generator. -/
def allOpen : Sudoku := ⟨fun _ _ => Cell.all_digits⟩

/-- Model of `Vec::swap_remove(j)`: return the element at `j`; the vector
keeps all other elements, with the last one moved into slot `j`. -/
def swapRemove (l : List Nat) (j : Nat) : Nat × List Nat :=
  (l.getD j 0, (l.set j (l.getLast?.getD 0)).dropLast)

/-- The clearing loop of `Sudoku::generate_solvable`: `n` times, draw an
index into the remaining choices with `picks` (the `rng.gen_range(0, len)`
results, call counter `k`), swap-remove the chosen position and reset it to
the full domain. -/
def clearCells (picks : Nat → Nat) : Nat → Nat → List Nat → Sudoku → Sudoku
  | _, 0, _, s => s
  | k, n + 1, choose, s =>
    let p := swapRemove choose (picks k)
    clearCells picks (k + 1) n p.2 (setAt s (p.1 / 9) (p.1 % 9) Cell.all_digits)

/-- Model of `Sudoku::generate_solvable`.  The caller-supplied random source
appears as `perm` (the result of shuffling `(0..81).collect()`) and `picks`
(the successive `gen_range(0, cells_to_choose.len())` draws).  The
`first_solution().unwrap()` on the fully open grid cannot fail (proved
below); the fallback keeps the model total. -/
def generate_solvable (perm : List Nat) (picks : Nat → Nat) (free_cells : Nat) :
    Option Sudoku :=
  if free_cells > 81 then none
  else
    let base := (first_solution allOpen).getD allOpen
    some (clearCells picks 0 free_cells perm base)

/-- Well-formedness of a cell mask (the §3 invariant: never bit 0, never a
bit above 9).  Every cell built by `from_line` satisfies it and every
operation preserves it. -/
def Cell.wf (c : Cell) : Prop := c.digits < 1024 ∧ c.digits.testBit 0 = false

/-- Well-formedness of a grid: every cell mask is well-formed. -/
def Sudoku.wf (s : Sudoku) : Prop := ∀ r c : Fin 9, (s.cells r c).wf

/-- Candidate-set inclusion between cells. -/
def CellSub (a b : Cell) : Prop := maskBits a.digits ⊆ maskBits b.digits

/-- Pointwise candidate-set inclusion between grids (derived grids of the
search only ever shrink domains). -/
def GridSub (s g : Sudoku) : Prop := ∀ r c : Fin 9, CellSub (s.cells r c) (g.cells r c)

/-- The digit a fully solved grid holds at a position. -/
def digitAt (sol : Sudoku) (r c : Nat) : Nat := (cellAt sol r c).first_digit

/-- `sol` is a solved grid compatible with `g`: it is solved and each of its
digits is still a candidate of the corresponding cell of `g`. -/
def SolExtends (sol g : Sudoku) : Prop :=
  is_solved sol = true ∧ ∀ r c : Nat, (cellAt g r c).has_digit (digitAt sol r c) = true

/-- The invariant carried by the `without_conflicts` scan relative to the
scanned grid `self`: the grid under construction only shrinks domains, the
change flag is exact (false means untouched, true means some domain shrank
strictly), and every touched cell is non-empty. -/
def WCInv (self : Sudoku) (st : Sudoku × Bool) : Prop :=
  GridSub st.1 self ∧
    (st.2 = false → st.1 = self) ∧
    (st.2 = true →
      ∃ rf cf : Fin 9,
        maskBits (st.1.cells rf cf).digits ⊂ maskBits (self.cells rf cf).digits) ∧
    (∀ rf cf : Fin 9, st.1.cells rf cf = self.cells rf cf ∨ (st.1.cells rf cf).digits ≠ 0)

/-- The invariant carried by the `find_unambiguities` sweep relative to the
starting grid `s0`: domains only shrink, and the change flag is exact
(false means the grid is still `s0`, true means the total candidate count
strictly dropped). -/
def FUInv (s0 : Sudoku) (st : Sudoku × Bool) : Prop :=
  GridSub st.1 s0 ∧ (st.2 = false → st.1 = s0) ∧
    (st.2 = true → totalLen st.1 < totalLen s0)

/-- The coordinate lists of the 27 constraint groups: 9 rows, 9 columns and
9 quadrants. -/
def isGroup (G : List (Nat × Nat)) : Prop :=
  (∃ i, i < 9 ∧ G = rowPositions i) ∨ (∃ i, i < 9 ∧ G = colPositions i) ∨
    (∃ a b, a < 3 ∧ b < 3 ∧ G = quadPositions (a * 3) (b * 3))

/-- A concrete fully solved line (the solved grid of the repository's
`test_solve_4`), used as witness input. -/
def solvedLine : List Char :=
  "346795812258431697971862543129576438835214769764389251517948326493627185682153974".toList

/-- The concrete solved grid parsed from `solvedLine`. -/
def solvedGrid : Sudoku := (from_line solvedLine).getD allOpen

/-- Spec-side description of an acceptable `from_line` character: a dot or a
digit `1`–`9` (whose code point lies in 49–57). -/
def goodChar (ch : Char) : Prop :=
  ch = '.' ∨ (49 ≤ ch.toNat ∧ ch.toNat ≤ 57)

instance (ch : Char) : Decidable (goodChar ch) := by
  unfold goodChar
  infer_instance

/-- Spec-side description of an acceptable `from_line` input: exactly 81
characters, each a dot or a digit `1`–`9`. -/
def lineOk (line : List Char) : Prop :=
  line.length = 81 ∧ ∀ ch ∈ line, goodChar ch

instance (line : List Char) : Decidable (lineOk line) := by
  unfold lineOk
  infer_instance

/-- Spec-side description of the cell a `from_line` character decodes to:
the full domain for a dot, the singleton of the digit otherwise. -/
def specCellOf (ch : Char) : Cell :=
  if ch = '.' then Cell.all_digits
  else (Cell.from_digit (ch.toNat - 48)).getD Cell.all_digits

/-- The pending stacks the iterator can hold while enumerating from
`stack0`: one constructor per loop iteration of `SolutionsIter::next`
(pruned branch, yielded solution, branching step), mirroring `nextFuel`
case for case, plus the seeded stack itself.  Every stack the enumeration
ever works on — across any number of `next()` calls — is reachable in this
sense. -/
inductive ReachStack (stack0 : List Sudoku) : List Sudoku → Prop
  | init : ReachStack stack0 stack0
  | prune {g : Sudoku} {rest : List Sudoku} :
      ReachStack stack0 (g :: rest) → fixpoint g = none → ReachStack stack0 rest
  | yield {g s : Sudoku} {rest : List Sudoku} :
      ReachStack stack0 (g :: rest) → fixpoint g = some s → is_solved s = true →
      ReachStack stack0 rest
  | branch {g s : Sudoku} {rest : List Sudoku} {r c : Nat} {cell : Cell} :
      ReachStack stack0 (g :: rest) → fixpoint g = some s → is_solved s = false →
      branchCell s = some (r, c, cell) →
      ReachStack stack0 (fixedChild s r c cell :: excludedChild s r c cell :: rest)

/-! ### Generic facts about Option-monad folds, the shape of every loop with
early `return None` in the source. -/

theorem foldlM_option_ind {α β : Type} {P : β → Prop} {f : β → α → Option β} :
    ∀ {l : List α} {b0 b1 : β}, List.foldlM f b0 l = some b1 → P b0 →
      (∀ b a b', a ∈ l → P b → f b a = some b' → P b') → P b1 := by
  intro l
  induction l with
  | nil =>
    intro b0 b1 h h0 _
    rw [List.foldlM_nil] at h
    cases h
    exact h0
  | cons a l ih =>
    intro b0 b1 h h0 hs
    rw [List.foldlM_cons] at h
    obtain ⟨b', hb', hrest⟩ := Option.bind_eq_some.mp h
    exact ih hrest (hs b0 a b' (by simp) h0 hb')
      (fun b x b2 hx hP hf => hs b x b2 (by simp [hx]) hP hf)

theorem foldlM_option_total {α β : Type} {P : β → Prop} {f : β → α → Option β} :
    ∀ {l : List α} {b0 : β}, P b0 →
      (∀ b a, a ∈ l → P b → ∃ b', f b a = some b' ∧ P b') →
      ∃ b1, List.foldlM f b0 l = some b1 ∧ P b1 := by
  intro l
  induction l with
  | nil =>
    intro b0 h0 _
    exact ⟨b0, by rw [List.foldlM_nil]; rfl, h0⟩
  | cons a l ih =>
    intro b0 h0 hs
    obtain ⟨b', hb', hP'⟩ := hs b0 a (by simp) h0
    obtain ⟨b1, h1, hP1⟩ := ih hP' (fun b x hx hP => hs b x (by simp [hx]) hP)
    exact ⟨b1, by rw [List.foldlM_cons, hb']; exact h1, hP1⟩

theorem foldlM_option_decomp {α β : Type} {f : β → α → Option β} :
    ∀ {l1 : List α} {a : α} {l2 : List α} {b0 b1 : β},
      List.foldlM f b0 (l1 ++ a :: l2) = some b1 →
      ∃ bm bm', List.foldlM f b0 l1 = some bm ∧ f bm a = some bm' ∧
        List.foldlM f bm' l2 = some b1 := by
  intro l1 a l2 b0 b1 h
  rw [List.foldlM_append] at h
  obtain ⟨bm, hbm, hrest⟩ := Option.bind_eq_some.mp h
  rw [List.foldlM_cons] at hrest
  obtain ⟨bm', hbm', hrest'⟩ := Option.bind_eq_some.mp hrest
  exact ⟨bm, bm', hbm, hbm', hrest'⟩

/-! ### The bitmask bridge: `Cell` operations through `maskBits`. -/

theorem mem_maskBits {n i : Nat} : i ∈ maskBits n ↔ i < 16 ∧ n.testBit i = true := by
  simp [maskBits, Finset.mem_filter, Finset.mem_range, and_comm]

theorem testBit_high_false {n : Nat} (hn : n < 65536) {i : Nat} (hi : 16 ≤ i) :
    n.testBit i = false := by
  apply Nat.testBit_lt_two_pow
  calc n < 65536 := hn
  _ = 2 ^ 16 := by norm_num
  _ ≤ 2 ^ i := Nat.pow_le_pow_right (by omega) hi

theorem Cell.ext_mask {a b : Cell} (h : maskBits a.digits = maskBits b.digits) :
    a = b := by
  obtain ⟨da, ha⟩ := a
  obtain ⟨db, hb⟩ := b
  simp only [Cell.mk.injEq]
  apply Nat.eq_of_testBit_eq
  intro i
  by_cases hi : i < 16
  · have := Finset.ext_iff.mp h i
    simp only [mem_maskBits] at this
    by_cases hta : Nat.testBit da i
    · have := (this.mp ⟨hi, hta⟩).2
      simp_all
    · by_cases htb : Nat.testBit db i
      · have := (this.mpr ⟨hi, htb⟩).2
        simp_all
      · simp_all
  · rw [testBit_high_false ha (by omega), testBit_high_false hb (by omega)]

theorem has_digit_iff {c : Cell} {d : Nat} :
    c.has_digit d = true ↔ d ∈ maskBits c.digits := by
  have hbit : c.has_digit d = c.digits.testBit d := by
    simp only [Cell.has_digit, Nat.and_one_is_mod, Nat.shiftRight_eq_div_pow,
      Nat.testBit_to_div_mod]
    rcases Nat.mod_two_eq_zero_or_one (c.digits / 2 ^ d) with h | h <;> simp [h]
  rw [hbit, mem_maskBits]
  constructor
  · intro h
    refine ⟨?_, h⟩
    by_contra hge
    rw [testBit_high_false c.isLt (by omega)] at h
    exact Bool.false_ne_true h
  · exact fun h => h.2

theorem maskBits_remove (c : Cell) (d : Nat) :
    maskBits (c.remove_digit d).digits = maskBits c.digits \ {d} := by
  ext i
  simp only [mem_maskBits, Finset.mem_sdiff, Finset.mem_singleton, Cell.remove_digit,
    Nat.testBit_and, Nat.testBit_xor]
  have h1 : (1 <<< d : Nat) = 2 ^ d := by simp [Nat.shiftLeft_eq]
  have h2 : (65535 : Nat) = 2 ^ 16 - 1 := by norm_num
  rw [h1, h2, Nat.testBit_two_pow, Nat.testBit_two_pow_sub_one]
  constructor
  · rintro ⟨hi, hb⟩
    rw [Bool.and_eq_true] at hb
    obtain ⟨hb1, hb2⟩ := hb
    refine ⟨⟨hi, hb1⟩, ?_⟩
    intro hdi
    subst hdi
    simp [hi] at hb2
  · rintro ⟨⟨hi, hb⟩, hne⟩
    refine ⟨hi, ?_⟩
    rw [Bool.and_eq_true]
    refine ⟨hb, ?_⟩
    have : ¬(d = i) := fun h => hne h.symm
    simp [this, hi]

theorem len_eq_card (c : Cell) : c.len = (maskBits c.digits).card := rfl

theorem len_zero_iff {c : Cell} : c.len = 0 ↔ c.digits = 0 := by
  rw [len_eq_card, Finset.card_eq_zero]
  constructor
  · intro h
    apply Nat.eq_of_testBit_eq
    intro i
    by_cases hi : i < 16
    · have := Finset.eq_empty_iff_forall_not_mem.mp h i
      rw [mem_maskBits] at this
      simpa [hi] using fun hb => this ⟨hi, hb⟩
    · simp [testBit_high_false c.isLt (by omega : 16 ≤ i)]
  · intro h
    rw [Finset.eq_empty_iff_forall_not_mem]
    intro i hi
    rw [h] at hi
    rw [mem_maskBits] at hi
    simp at hi

theorem is_empty_iff {c : Cell} : c.is_empty = true ↔ c.digits = 0 := by
  rw [Cell.is_empty, beq_iff_eq, len_zero_iff]

theorem find_desc_spec {p : Nat → Bool} :
    ∀ {l : List Nat}, l.Pairwise (fun a b => a > b) → ∀ {a : Nat},
      l.find? p = some a → p a = true ∧ ∀ b ∈ l, p b = true → b ≤ a := by
  intro l
  induction l with
  | nil => intro _ a h; simp at h
  | cons x l ih =>
    intro hp a h
    rw [List.find?_cons] at h
    rcases hpx : p x with hfalse | htrue
    · rw [hpx] at h
      simp only at h
      obtain ⟨hpa, hall⟩ := ih (List.Pairwise.sublist (List.sublist_cons_self x l) hp) h
      refine ⟨hpa, ?_⟩
      intro b hb hpb
      rcases List.mem_cons.mp hb with rfl | hbl
      · rw [hpx] at hpb; cases hpb
      · exact hall b hbl hpb
    · rw [hpx] at h
      simp only [Option.some.injEq] at h
      subst h
      refine ⟨hpx, ?_⟩
      intro b hb hpb
      rcases List.mem_cons.mp hb with rfl | hbl
      · exact le_refl _
      · exact le_of_lt (List.rel_of_pairwise_cons hp hbl)

theorem range16_reverse_desc : (List.range 16).reverse.Pairwise (fun a b => a > b) := by
  rw [List.pairwise_reverse]
  exact List.pairwise_lt_range 16

theorem first_digit_spec {c : Cell} (h : c.digits ≠ 0) :
    c.first_digit ∈ maskBits c.digits ∧ ∀ i ∈ maskBits c.digits, i ≤ c.first_digit := by
  rcases hf : (List.range 16).reverse.find? (fun i => c.digits.testBit i) with _ | a
  · exfalso
    apply h
    apply Nat.eq_of_testBit_eq
    intro i
    by_cases hi : i < 16
    · have := List.find?_eq_none.mp hf i (by simp [List.mem_reverse, List.mem_range, hi])
      simpa using this
    · simp [testBit_high_false c.isLt (by omega : 16 ≤ i)]
  · obtain ⟨hpa, hall⟩ := find_desc_spec range16_reverse_desc hf
    have ha16 : a < 16 := by
      have := List.mem_of_find?_eq_some hf
      rw [List.mem_reverse, List.mem_range] at this
      exact this
    have hfd : c.first_digit = a := by
      simp only [Cell.first_digit, Cell.leadingZeros16, hf]
      omega
    rw [hfd]
    refine ⟨mem_maskBits.mpr ⟨ha16, hpa⟩, ?_⟩
    intro i hi
    rw [mem_maskBits] at hi
    exact hall i (by simp [List.mem_reverse, List.mem_range, hi.1]) hi.2

theorem first_digit_lt16 {c : Cell} (h : c.digits ≠ 0) : c.first_digit < 16 := by
  have := (first_digit_spec h).1
  rw [mem_maskBits] at this
  exact this.1

theorem singleton_maskBits {c : Cell} (h : c.len = 1) :
    maskBits c.digits = {c.first_digit} := by
  obtain ⟨a, ha⟩ := Finset.card_eq_one.mp (by rw [← len_eq_card]; exact h)
  have hne : c.digits ≠ 0 := by
    intro h0
    rw [← len_zero_iff] at h0
    omega
  obtain ⟨hmem, _⟩ := first_digit_spec hne
  rw [ha] at hmem ⊢
  rw [Finset.mem_singleton] at hmem
  rw [hmem]

theorem len_pos_of_has_digit {c : Cell} {d : Nat} (h : c.has_digit d = true) :
    1 ≤ c.len := by
  rw [len_eq_card]
  exact Finset.card_pos.mpr ⟨d, has_digit_iff.mp h⟩

theorem maskBits_two_pow {d : Nat} (hd : d < 16) : maskBits (1 <<< d) = {d} := by
  ext i
  rw [mem_maskBits, Finset.mem_singleton]
  have : (1 <<< d : Nat) = 2 ^ d := by simp [Nat.shiftLeft_eq]
  rw [this, Nat.testBit_two_pow]
  constructor
  · rintro ⟨_, hb⟩
    exact (of_decide_eq_true hb).symm
  · rintro rfl
    exact ⟨hd, by simp⟩

theorem from_digit_eq_some {d : Nat} (h1 : 1 ≤ d) (h9 : d ≤ 9) :
    ∃ cl : Cell, Cell.from_digit d = some cl ∧ maskBits cl.digits = {d} := by
  rw [Cell.from_digit]
  rw [dif_neg (by omega)]
  exact ⟨_, rfl, maskBits_two_pow (by omega)⟩

theorem from_digit_none_iff {d : Nat} : Cell.from_digit d = none ↔ d = 0 ∨ d > 9 := by
  rw [Cell.from_digit]
  by_cases h : d = 0 ∨ d > 9
  · simp [h]
  · simp [h]

theorem singleton_props {c : Cell} (h : c.len = 1) :
    c.has_digit c.first_digit = true ∧
      ∀ d, c.has_digit d = true → d = c.first_digit := by
  have hm := singleton_maskBits h
  constructor
  · rw [has_digit_iff, hm]
    exact Finset.mem_singleton_self _
  · intro d hd
    rw [has_digit_iff, hm, Finset.mem_singleton] at hd
    exact hd

theorem wf_iff {c : Cell} : c.wf ↔ ∀ i ∈ maskBits c.digits, 1 ≤ i ∧ i ≤ 9 := by
  constructor
  · rintro ⟨hlt, hbit0⟩ i hi
    rw [mem_maskBits] at hi
    constructor
    · rcases Nat.eq_zero_or_pos i with rfl | h
      · rw [hbit0] at hi; cases hi.2
      · exact h
    · by_contra h10
      have : c.digits.testBit i = false := by
        apply Nat.testBit_lt_two_pow
        calc c.digits < 1024 := hlt
        _ = 2 ^ 10 := by norm_num
        _ ≤ 2 ^ i := Nat.pow_le_pow_right (by omega) (by omega)
      rw [this] at hi
      cases hi.2
  · intro h
    constructor
    · have : (1024 : Nat) = 2 ^ 10 := by norm_num
      rw [this]
      apply Nat.lt_pow_two_of_testBit
      intro i hi
      by_cases h16 : i < 16
      · by_contra hb
        have hb' : c.digits.testBit i = true := by
          cases hx : c.digits.testBit i
          · exact absurd hx hb
          · rfl
        have := (h i (mem_maskBits.mpr ⟨h16, hb'⟩)).2
        omega
      · exact testBit_high_false c.isLt (by omega)
    · by_contra hb
      have hb' : c.digits.testBit 0 = true := by
        cases hx : c.digits.testBit 0
        · exact absurd hx hb
        · rfl
      have := (h 0 (mem_maskBits.mpr ⟨by omega, hb'⟩)).1
      omega

/-! ### Grid accessors and coordinate lists. -/

theorem Sudoku.ext_cells {s t : Sudoku} (h : ∀ r c : Fin 9, s.cells r c = t.cells r c) :
    s = t := by
  cases s; cases t
  simp only [Sudoku.mk.injEq]
  funext r c
  exact h r c

theorem fin9_eq_iff {a b : Nat} : fin9 a = fin9 b ↔ a % 9 = b % 9 := by
  rw [Fin.ext_iff]
  simp [fin9]

theorem fin9_of_lt {a : Nat} (h : a < 9) : (fin9 a : Nat) = a := by
  simp [fin9, Nat.mod_eq_of_lt h]

theorem cellAt_mod (s : Sudoku) (r c : Nat) :
    cellAt s r c = cellAt s (r % 9) (c % 9) := by
  have h1 : r % 9 % 9 = r % 9 := by omega
  have h2 : c % 9 % 9 = c % 9 := by omega
  simp [cellAt, fin9, h1, h2]

theorem cellAt_setAt (s : Sudoku) (r c : Nat) (v : Cell) (r' c' : Nat) :
    cellAt (setAt s r c v) r' c' =
      if r % 9 = r' % 9 ∧ c % 9 = c' % 9 then v else cellAt s r' c' := by
  simp only [cellAt, setAt]
  by_cases h : fin9 r' = fin9 r ∧ fin9 c' = fin9 c
  · rw [if_pos h]
    rw [if_pos]
    obtain ⟨h1, h2⟩ := h
    rw [fin9_eq_iff] at h1 h2
    exact ⟨h1.symm, h2.symm⟩
  · rw [if_neg h]
    rw [if_neg]
    intro hc
    apply h
    obtain ⟨h1, h2⟩ := hc
    constructor
    · rw [fin9_eq_iff]; exact h1.symm
    · rw [fin9_eq_iff]; exact h2.symm

theorem cellAt_setAt_self (s : Sudoku) (r c : Nat) (v : Cell) :
    cellAt (setAt s r c v) r c = v := by
  rw [cellAt_setAt]
  simp

theorem setAt_cells (s : Sudoku) (r c : Nat) (v : Cell) (rf cf : Fin 9) :
    (setAt s r c v).cells rf cf =
      if rf = fin9 r ∧ cf = fin9 c then v else s.cells rf cf := rfl

theorem setAt_self_eq (s : Sudoku) (r c : Nat) (v : Cell)
    (h : v = cellAt s r c) : setAt s r c v = s := by
  apply Sudoku.ext_cells
  intro rf cf
  rw [setAt_cells]
  by_cases hc : rf = fin9 r ∧ cf = fin9 c
  · rw [if_pos hc, h, cellAt]
    rw [hc.1, hc.2]
  · rw [if_neg hc]

theorem mem_positions {rc : Nat × Nat} : rc ∈ positions ↔ rc.1 < 9 ∧ rc.2 < 9 := by
  obtain ⟨r, c⟩ := rc
  simp [positions, List.mem_flatMap, List.mem_map, List.mem_range]

theorem positions_length : positions.length = 81 := by decide

theorem positions_nodup : positions.Nodup := by decide

theorem mem_rowPositions {i : Nat} {rc : Nat × Nat} :
    rc ∈ rowPositions i ↔ rc.1 = i ∧ rc.2 < 9 := by
  obtain ⟨r, c⟩ := rc
  simp only [rowPositions, List.mem_map, List.mem_range, Prod.mk.injEq]
  constructor
  · rintro ⟨x, hx, hi, hc⟩
    exact ⟨hi.symm, hc ▸ hx⟩
  · rintro ⟨rfl, hc⟩
    exact ⟨c, hc, rfl, rfl⟩

theorem mem_colPositions {i : Nat} {rc : Nat × Nat} :
    rc ∈ colPositions i ↔ rc.2 = i ∧ rc.1 < 9 := by
  obtain ⟨r, c⟩ := rc
  simp only [colPositions, List.mem_map, List.mem_range, Prod.mk.injEq]
  constructor
  · rintro ⟨x, hx, hr, hi⟩
    exact ⟨hi.symm, hr ▸ hx⟩
  · rintro ⟨rfl, hc⟩
    exact ⟨r, hc, rfl, rfl⟩

theorem mem_quadPositions {qr qc : Nat} {rc : Nat × Nat} :
    rc ∈ quadPositions qr qc ↔
      qr ≤ rc.1 ∧ rc.1 < qr + 3 ∧ qc ≤ rc.2 ∧ rc.2 < qc + 3 := by
  obtain ⟨r, c⟩ := rc
  simp only [quadPositions, List.mem_map, List.mem_range, Prod.mk.injEq]
  constructor
  · rintro ⟨i, hi, h1, h2⟩
    omega
  · rintro ⟨h1, h2, h3, h4⟩
    refine ⟨(r - qr) * 3 + (c - qc), by omega, by omega, by omega⟩

theorem rowPositions_nodup (i : Nat) : (rowPositions i).Nodup := by
  apply List.Nodup.map
  · intro a b h
    simpa using congrArg Prod.snd h
  · exact List.nodup_range 9

theorem colPositions_nodup (i : Nat) : (colPositions i).Nodup := by
  apply List.Nodup.map
  · intro a b h
    simpa using congrArg Prod.fst h
  · exact List.nodup_range 9

theorem quadPositions_nodup (qr qc : Nat) : (quadPositions qr qc).Nodup := by
  apply List.Nodup.map
  · intro a b h
    have h1 : qr + a / 3 = qr + b / 3 := congrArg Prod.fst h
    have h2 : qc + a % 3 = qc + b % 3 := congrArg Prod.snd h
    omega
  · exact List.nodup_range 9

theorem rowPositions_length (i : Nat) : (rowPositions i).length = 9 := by
  simp [rowPositions]

theorem colPositions_length (i : Nat) : (colPositions i).length = 9 := by
  simp [colPositions]

theorem quadPositions_length (qr qc : Nat) : (quadPositions qr qc).length = 9 := by
  simp [quadPositions]

/-! ### Structure of solved grids. -/

theorem maskBits_all_digits : maskBits Cell.all_digits.digits = Finset.Icc 1 9 := by
  decide

theorem maskBits_fold_remove : ∀ (ds : List Nat) (m : Cell),
    maskBits ((ds.foldl (fun acc d => acc.remove_digit d) m).digits) =
      maskBits m.digits \ ds.toFinset := by
  intro ds
  induction ds with
  | nil => intro m; simp
  | cons d ds ih =>
    intro m
    rw [List.foldl_cons, ih, maskBits_remove, List.toFinset_cons]
    ext i
    simp only [Finset.mem_sdiff, Finset.mem_singleton, Finset.mem_insert]
    constructor
    · rintro ⟨⟨h1, h2⟩, h3⟩
      exact ⟨h1, by tauto⟩
    · rintro ⟨h1, h2⟩
      exact ⟨⟨h1, by tauto⟩, by tauto⟩

theorem maskBits_eq_empty_iff {c : Cell} : maskBits c.digits = ∅ ↔ c.digits = 0 := by
  rw [← len_zero_iff, len_eq_card, Finset.card_eq_zero]

theorem has_no_duplicates_iff {cells : List Cell} :
    has_no_duplicates cells = true ↔
      Finset.Icc 1 9 ⊆ (cells.map Cell.first_digit).toFinset := by
  rw [has_no_duplicates, is_empty_iff]
  have hfold : cells.foldl (fun m c => m.remove_digit c.first_digit) Cell.all_digits =
      (cells.map Cell.first_digit).foldl (fun m d => m.remove_digit d) Cell.all_digits := by
    rw [List.foldl_map]
  rw [hfold, ← maskBits_eq_empty_iff, maskBits_fold_remove, maskBits_all_digits]
  exact Finset.sdiff_eq_empty_iff_subset

theorem isGroup_length {G : List (Nat × Nat)} (hG : isGroup G) : G.length = 9 := by
  rcases hG with ⟨i, _, rfl⟩ | ⟨i, _, rfl⟩ | ⟨a, b, _, _, rfl⟩
  · exact rowPositions_length i
  · exact colPositions_length i
  · exact quadPositions_length _ _

theorem isGroup_nodup {G : List (Nat × Nat)} (hG : isGroup G) : G.Nodup := by
  rcases hG with ⟨i, _, rfl⟩ | ⟨i, _, rfl⟩ | ⟨a, b, _, _, rfl⟩
  · exact rowPositions_nodup i
  · exact colPositions_nodup i
  · exact quadPositions_nodup _ _

theorem isGroup_bounds {G : List (Nat × Nat)} (hG : isGroup G) {rc : Nat × Nat}
    (h : rc ∈ G) : rc.1 < 9 ∧ rc.2 < 9 := by
  rcases hG with ⟨i, hi, rfl⟩ | ⟨i, hi, rfl⟩ | ⟨a, b, ha, hb, rfl⟩
  · have := mem_rowPositions.mp h
    omega
  · have := mem_colPositions.mp h
    omega
  · have := mem_quadPositions.mp h
    omega

theorem solved_len1 {s : Sudoku} (hs : is_solved s = true) (r c : Nat) :
    (cellAt s r c).len = 1 := by
  rw [is_solved] at hs
  simp only [Bool.and_eq_true] at hs
  have hall := List.all_eq_true.mp hs.1.1.1
  rw [cellAt_mod]
  have hmem : ((r % 9, c % 9) : Nat × Nat) ∈ positions :=
    mem_positions.mpr ⟨by omega, by omega⟩
  have := hall _ hmem
  exact beq_iff_eq.mp this

theorem solved_has_no_duplicates {s : Sudoku} (hs : is_solved s = true)
    {G : List (Nat × Nat)} (hG : isGroup G) :
    has_no_duplicates (G.map (fun rc => cellAt s rc.1 rc.2)) = true := by
  rw [is_solved] at hs
  simp only [Bool.and_eq_true] at hs
  obtain ⟨⟨⟨_, hrows⟩, hcols⟩, hquads⟩ := hs
  rcases hG with ⟨i, hi, rfl⟩ | ⟨i, hi, rfl⟩ | ⟨a, b, ha, hb, rfl⟩
  · exact List.all_eq_true.mp hrows i (List.mem_range.mpr hi)
  · exact List.all_eq_true.mp hcols i (List.mem_range.mpr hi)
  · have hmem : a * 3 + b ∈ List.range 9 := List.mem_range.mpr (by omega)
    have := List.all_eq_true.mp hquads _ hmem
    have h1 : (a * 3 + b) / 3 * 3 = a * 3 := by omega
    have h2 : (a * 3 + b) % 3 * 3 = b * 3 := by omega
    rw [h1, h2] at this
    rw [quadCells] at this
    have h3 : quad_of (a * 3) (b * 3) = (a * 3, b * 3) := by
      simp only [quad_of, Prod.mk.injEq]
      omega
    rw [h3] at this
    exact this

theorem solved_group_digits {s : Sudoku} (hs : is_solved s = true)
    {G : List (Nat × Nat)} (hG : isGroup G) :
    (G.map (fun rc => digitAt s rc.1 rc.2)).toFinset = Finset.Icc 1 9 ∧
      (G.map (fun rc => digitAt s rc.1 rc.2)).Nodup := by
  have hmap : G.map (fun rc => digitAt s rc.1 rc.2) =
      (G.map (fun rc => cellAt s rc.1 rc.2)).map Cell.first_digit := by
    rw [List.map_map]
    rfl
  have hsub := has_no_duplicates_iff.mp (solved_has_no_duplicates hs hG)
  rw [← hmap] at hsub
  have hlen : (G.map (fun rc => digitAt s rc.1 rc.2)).length = 9 := by
    rw [List.length_map, isGroup_length hG]
  have hcard9 : (Finset.Icc 1 9 : Finset Nat).card = 9 := by decide
  have hcardle : (G.map (fun rc => digitAt s rc.1 rc.2)).toFinset.card ≤ 9 := by
    calc (G.map (fun rc => digitAt s rc.1 rc.2)).toFinset.card
        ≤ (G.map (fun rc => digitAt s rc.1 rc.2)).length := List.toFinset_card_le _
    _ = 9 := hlen
  have heq : (G.map (fun rc => digitAt s rc.1 rc.2)).toFinset = Finset.Icc 1 9 := by
    have h2 : (G.map (fun rc => digitAt s rc.1 rc.2)).toFinset.card ≤
        (Finset.Icc 1 9 : Finset Nat).card := by
      rw [hcard9]
      exact hcardle
    exact (Finset.eq_of_subset_of_card_le hsub h2).symm
  refine ⟨heq, ?_⟩
  have hdedup : (G.map (fun rc => digitAt s rc.1 rc.2)).dedup.length = 9 := by
    rw [← List.card_toFinset, heq, hcard9]
  rw [← List.dedup_eq_self]
  apply List.Sublist.eq_of_length (List.dedup_sublist _)
  rw [hdedup, hlen]

theorem solved_group_covers {s : Sudoku} (hs : is_solved s = true)
    {G : List (Nat × Nat)} (hG : isGroup G) {d : Nat} (h1 : 1 ≤ d) (h9 : d ≤ 9) :
    ∃ rc ∈ G, digitAt s rc.1 rc.2 = d := by
  have heq := (solved_group_digits hs hG).1
  have : d ∈ (G.map (fun rc => digitAt s rc.1 rc.2)).toFinset := by
    rw [heq, Finset.mem_Icc]
    omega
  rw [List.mem_toFinset, List.mem_map] at this
  obtain ⟨rc, hrc, hd⟩ := this
  exact ⟨rc, hrc, hd⟩

theorem solved_group_distinct {s : Sudoku} (hs : is_solved s = true)
    {G : List (Nat × Nat)} (hG : isGroup G) {p q : Nat × Nat}
    (hp : p ∈ G) (hq : q ∈ G) (hne : p ≠ q) :
    digitAt s p.1 p.2 ≠ digitAt s q.1 q.2 := by
  intro heq
  exact hne (List.inj_on_of_nodup_map (solved_group_digits hs hG).2 hp hq heq)

theorem solved_digit_range {s : Sudoku} (hs : is_solved s = true) (r c : Nat) :
    1 ≤ digitAt s r c ∧ digitAt s r c ≤ 9 := by
  have hmod : digitAt s r c = digitAt s (r % 9) (c % 9) := by
    simp only [digitAt]
    rw [cellAt_mod]
  rw [hmod]
  have hG : isGroup (rowPositions (r % 9)) := Or.inl ⟨r % 9, by omega, rfl⟩
  have hmem : ((r % 9, c % 9) : Nat × Nat) ∈ rowPositions (r % 9) :=
    mem_rowPositions.mpr ⟨rfl, by omega⟩
  have heq := (solved_group_digits hs hG).1
  have : digitAt s (r % 9) (c % 9) ∈
      ((rowPositions (r % 9)).map (fun rc => digitAt s rc.1 rc.2)).toFinset := by
    rw [List.mem_toFinset, List.mem_map]
    exact ⟨(r % 9, c % 9), hmem, rfl⟩
  rw [heq, Finset.mem_Icc] at this
  exact this

theorem no_dup_of_distinct {cells : List Cell} (hlen : cells.length = 9)
    (hrange : ∀ c ∈ cells, 1 ≤ c.first_digit ∧ c.first_digit ≤ 9)
    (hnd : (cells.map Cell.first_digit).Nodup) :
    has_no_duplicates cells = true := by
  rw [has_no_duplicates_iff]
  have hsub : (cells.map Cell.first_digit).toFinset ⊆ Finset.Icc 1 9 := by
    intro d hd
    rw [List.mem_toFinset, List.mem_map] at hd
    obtain ⟨c, hc, rfl⟩ := hd
    rw [Finset.mem_Icc]
    exact hrange c hc
  have hcard : (cells.map Cell.first_digit).toFinset.card = 9 := by
    rw [List.toFinset_card_of_nodup hnd, List.length_map, hlen]
  have : (cells.map Cell.first_digit).toFinset = Finset.Icc 1 9 := by
    apply Finset.eq_of_subset_of_card_le hsub
    rw [hcard]
    decide
  rw [this]

/-! ### Domain inclusion between derived grids and the candidate-count
measure. -/

theorem fin9_val (rf : Fin 9) : fin9 (rf : Nat) = rf := by
  apply Fin.ext
  simp [fin9, Nat.mod_eq_of_lt rf.isLt]

theorem cellAt_of_fin (s : Sudoku) (rf cf : Fin 9) :
    cellAt s (rf : Nat) (cf : Nat) = s.cells rf cf := by
  rw [cellAt, fin9_val, fin9_val]

theorem GridSub.refl (s : Sudoku) : GridSub s s := fun _ _ => Finset.Subset.refl _

theorem GridSub.trans {a b c : Sudoku} (h1 : GridSub a b) (h2 : GridSub b c) :
    GridSub a c := fun r cc => Finset.Subset.trans (h1 r cc) (h2 r cc)

theorem GridSub.setAt {s : Sudoku} {r c : Nat} {v : Cell}
    (h : CellSub v (cellAt s r c)) : GridSub (setAt s r c v) s := by
  intro rf cf
  rw [setAt_cells]
  by_cases hc : rf = fin9 r ∧ cf = fin9 c
  · rw [if_pos hc]
    rw [CellSub] at h ⊢
    rw [cellAt] at h
    rw [hc.1, hc.2]
    exact h
  · rw [if_neg hc]
    exact Finset.Subset.refl _

theorem totalLen_prod (g : Sudoku) :
    totalLen g = ∑ p : Fin 9 × Fin 9, (g.cells p.1 p.2).len := by
  rw [totalLen, Fintype.sum_prod_type]

theorem totalLen_le_of_sub {s g : Sudoku} (h : GridSub s g) :
    totalLen s ≤ totalLen g := by
  rw [totalLen_prod, totalLen_prod]
  apply Finset.sum_le_sum
  intro p _
  rw [len_eq_card, len_eq_card]
  exact Finset.card_le_card (h p.1 p.2)

theorem totalLen_lt_of_strict {s g : Sudoku} (h : GridSub s g)
    (hst : ∃ rf cf : Fin 9, maskBits (s.cells rf cf).digits ⊂ maskBits (g.cells rf cf).digits) :
    totalLen s < totalLen g := by
  rw [totalLen_prod, totalLen_prod]
  obtain ⟨rf, cf, hrc⟩ := hst
  apply Finset.sum_lt_sum
  · intro p _
    rw [len_eq_card, len_eq_card]
    exact Finset.card_le_card (h p.1 p.2)
  · refine ⟨(rf, cf), Finset.mem_univ _, ?_⟩
    rw [len_eq_card, len_eq_card]
    exact Finset.card_lt_card hrc

theorem cell_ne_of_mask_ssubset {a b : Cell}
    (h : maskBits a.digits ⊂ maskBits b.digits) : a ≠ b := by
  intro heq
  subst heq
  exact (lt_irrefl _) h

theorem mask_ssubset_of_sub_ne {a b : Cell} (hsub : CellSub a b) (hne : a ≠ b) :
    maskBits a.digits ⊂ maskBits b.digits := by
  rw [Finset.ssubset_iff_subset_ne]
  refine ⟨hsub, ?_⟩
  intro heq
  exact hne (Cell.ext_mask heq)

/-! ### Behaviour of the elimination pass `without_conflicts`. -/

theorem remove_d_at_inv {self : Sudoku} {r c d : Nat} {st st' : Sudoku × Bool}
    {nr nc : Nat} (hP : WCInv self st)
    (h : remove_d_at self r c d st nr nc = some st') : WCInv self st' := by
  rw [remove_d_at] at h
  by_cases hsame : nr = r ∧ nc = c
  · rw [if_pos hsame] at h
    cases h
    exact hP
  · rw [if_neg hsame] at h
    simp only at h
    by_cases hemp : ((cellAt st.1 nr nc).remove_digit d).is_empty = true
    · rw [if_pos hemp] at h
      cases h
    · rw [if_neg hemp] at h
      obtain ⟨hsub, hfalse, htrue, hnz⟩ := hP
      have hclsub : CellSub ((cellAt st.1 nr nc).remove_digit d) (cellAt st.1 nr nc) := by
        rw [CellSub, maskBits_remove]
        exact Finset.sdiff_subset
      have hclsubself : CellSub ((cellAt st.1 nr nc).remove_digit d) (cellAt self nr nc) := by
        rw [CellSub] at hclsub ⊢
        refine Finset.Subset.trans hclsub ?_
        exact hsub (fin9 nr) (fin9 nc)
      cases h
      refine ⟨?_, ?_, ?_, ?_⟩
      · exact GridSub.trans (GridSub.setAt hclsub) hsub
      · intro hch
        rw [Bool.or_eq_false_iff] at hch
        obtain ⟨h2, heq⟩ := hch
        rw [Bool.not_eq_false', decide_eq_true_eq] at heq
        rw [hfalse h2] at heq ⊢
        exact setAt_self_eq _ _ _ _ heq
      · intro hch
        rw [Bool.or_eq_true] at hch
        rcases hch with h2 | hne
        · obtain ⟨rf, cf, hst⟩ := htrue h2
          by_cases hloc : rf = fin9 nr ∧ cf = fin9 nc
          · refine ⟨rf, cf, ?_⟩
            rw [setAt_cells, if_pos hloc]
            refine lt_of_le_of_lt ?_ hst
            rw [hloc.1, hloc.2]
            exact hclsub
          · refine ⟨rf, cf, ?_⟩
            rw [setAt_cells, if_neg hloc]
            exact hst
        · rw [Bool.not_eq_true', decide_eq_false_iff_not] at hne
          refine ⟨fin9 nr, fin9 nc, ?_⟩
          rw [setAt_cells, if_pos ⟨rfl, rfl⟩]
          exact mask_ssubset_of_sub_ne hclsubself hne
      · intro rf cf
        rw [setAt_cells]
        by_cases hloc : rf = fin9 nr ∧ cf = fin9 nc
        · rw [if_pos hloc]
          right
          intro hdig
          apply hemp
          rw [is_empty_iff]
          exact hdig
        · rw [if_neg hloc]
          exact hnz rf cf

theorem conflictStep_inv {self : Sudoku} {st st' : Sudoku × Bool} {rc : Nat × Nat}
    (hP : WCInv self st) (h : conflictStep self st rc = some st') : WCInv self st' := by
  obtain ⟨r, c⟩ := rc
  simp only [conflictStep] at h
  by_cases h0 : (cellAt self r c).len = 0
  · rw [if_pos h0] at h
    cases h
  · rw [if_neg h0] at h
    by_cases h1 : (cellAt self r c).len = 1
    · rw [if_pos h1] at h
      refine foldlM_option_ind h hP ?_
      intro b i b' _ hPb hf
      obtain ⟨b1, hb1, hf2⟩ := Option.bind_eq_some.mp hf
      obtain ⟨b2, hb2, hf3⟩ := Option.bind_eq_some.mp hf2
      exact remove_d_at_inv (remove_d_at_inv (remove_d_at_inv hPb hb1) hb2) hf3
    · rw [if_neg h1] at h
      cases h
      exact hP

theorem without_conflicts_inv {self : Sudoku} {st' : Sudoku × Bool}
    (h : without_conflicts self = some st') : WCInv self st' := by
  refine foldlM_option_ind h ?_ ?_
  · refine ⟨GridSub.refl self, fun _ => rfl, ?_, fun _ _ => Or.inl rfl⟩
    intro hf
    cases hf
  · intro b a b' _ hPb hf
    exact conflictStep_inv hPb hf

theorem wc_self_nonzero {self : Sudoku} {x : Sudoku × Bool}
    (h : without_conflicts self = some x) (rf cf : Fin 9) :
    (self.cells rf cf).digits ≠ 0 := by
  intro hdig
  have hmem : (((rf : Nat), (cf : Nat)) : Nat × Nat) ∈ positions :=
    mem_positions.mpr ⟨rf.isLt, cf.isLt⟩
  obtain ⟨l1, l2, hsplit⟩ := List.append_of_mem hmem
  rw [without_conflicts, hsplit] at h
  obtain ⟨bm, bm', _, hstep, _⟩ := foldlM_option_decomp h
  simp only [conflictStep] at hstep
  have h0 : (cellAt self (rf : Nat) (cf : Nat)).len = 0 := by
    rw [cellAt_of_fin, len_zero_iff]
    exact hdig
  rw [if_pos h0] at hstep
  cases hstep

theorem wc_all_nonzero {self : Sudoku} {n : Sudoku} {ch : Bool}
    (h : without_conflicts self = some (n, ch)) (rf cf : Fin 9) :
    (n.cells rf cf).digits ≠ 0 := by
  rcases (without_conflicts_inv h).2.2.2 rf cf with heq | hnz
  · rw [heq]
    exact wc_self_nonzero h rf cf
  · exact hnz

theorem wc_true_lt {self n : Sudoku} (h : without_conflicts self = some (n, true)) :
    totalLen n < totalLen self := by
  obtain ⟨hsub, _, htrue, _⟩ := without_conflicts_inv h
  exact totalLen_lt_of_strict hsub (htrue rfl)

/-! ### Behaviour of the hidden-single pass `find_unambiguities`. -/

theorem foldl_inv {α β : Type} {P : β → Prop} {f : β → α → β} :
    ∀ {l : List α} {b : β}, P b → (∀ b a, a ∈ l → P b → P (f b a)) →
      P (l.foldl f b) := by
  intro l
  induction l with
  | nil => intro b h _; exact h
  | cons a l ih =>
    intro b h hs
    rw [List.foldl_cons]
    exact ih (hs b a (by simp) h) (fun b x hx hP => hs b x (by simp [hx]) hP)

theorem scan_digit_acc_some {s : Sudoku} {d : Nat} :
    ∀ {l : List (Nat × Nat)} {a rc : Nat × Nat},
      scan_digit s d l (some a) = some rc →
      rc = a ∧ ∀ p ∈ l, (cellAt s p.1 p.2).has_digit d = false := by
  intro l
  induction l with
  | nil =>
    intro a rc h
    rw [scan_digit] at h
    cases h
    exact ⟨rfl, by simp⟩
  | cons x rest ih =>
    intro a rc h
    rw [scan_digit] at h
    cases hhd : (cellAt s x.1 x.2).has_digit d with
    | false =>
      rw [hhd] at h
      simp only [Bool.not_false, if_true] at h
      obtain ⟨hrc, hall⟩ := ih h
      refine ⟨hrc, ?_⟩
      intro p hp
      rcases List.mem_cons.mp hp with rfl | hpl
      · exact hhd
      · exact hall p hpl
    | true =>
      rw [hhd] at h
      simp only [Bool.not_true, if_false] at h
      by_cases hlen : (cellAt s x.1 x.2).len = 1
      · rw [if_pos hlen] at h
        cases h
      · rw [if_neg hlen] at h
        cases h

theorem scan_digit_none_some {s : Sudoku} {d : Nat} :
    ∀ {l : List (Nat × Nat)} {rc : Nat × Nat},
      scan_digit s d l none = some rc →
      rc ∈ l ∧ (cellAt s rc.1 rc.2).has_digit d = true ∧
        (cellAt s rc.1 rc.2).len ≠ 1 ∧
        ∀ p ∈ l, (cellAt s p.1 p.2).has_digit d = true → p = rc := by
  intro l
  induction l with
  | nil =>
    intro rc h
    rw [scan_digit] at h
    cases h
  | cons x rest ih =>
    intro rc h
    rw [scan_digit] at h
    cases hhd : (cellAt s x.1 x.2).has_digit d with
    | false =>
      rw [hhd] at h
      simp only [Bool.not_false, if_true] at h
      obtain ⟨hmem, hd2, hlen, huniq⟩ := ih h
      refine ⟨List.mem_cons_of_mem _ hmem, hd2, hlen, ?_⟩
      intro p hp hpd
      rcases List.mem_cons.mp hp with rfl | hpl
      · rw [hhd] at hpd
        cases hpd
      · exact huniq p hpl hpd
    | true =>
      rw [hhd] at h
      simp only [Bool.not_true, if_false] at h
      by_cases hlen : (cellAt s x.1 x.2).len = 1
      · rw [if_pos hlen] at h
        cases h
      · rw [if_neg hlen] at h
        obtain ⟨hrc, hall⟩ := scan_digit_acc_some h
        subst hrc
        refine ⟨List.mem_cons_self _ _, hhd, hlen, ?_⟩
        intro p hp hpd
        rcases List.mem_cons.mp hp with rfl | hpl
        · rfl
        · rw [hall p hpl] at hpd
          cases hpd

theorem find_unambiguity_cases {s : Sudoku} {d : Nat} {G : List (Nat × Nat)}
    (hd1 : 1 ≤ d) (hd9 : d ≤ 9) :
    find_unambiguity s d G = (s, false) ∨
      ∃ rc cl, scan_digit s d G none = some rc ∧ Cell.from_digit d = some cl ∧
        maskBits cl.digits = {d} ∧
        find_unambiguity s d G = (setAt s rc.1 rc.2 cl, true) := by
  obtain ⟨cl, hcl, hmask⟩ := from_digit_eq_some hd1 hd9
  cases hscan : scan_digit s d G none with
  | none =>
    left
    rw [find_unambiguity, hscan]
  | some rc =>
    right
    refine ⟨rc, cl, rfl, hcl, hmask, ?_⟩
    rw [find_unambiguity, hscan, hcl]
    rfl

theorem fu_one_sub {s : Sudoku} {d : Nat} {G : List (Nat × Nat)}
    (hd1 : 1 ≤ d) (hd9 : d ≤ 9) : GridSub (find_unambiguity s d G).1 s := by
  rcases find_unambiguity_cases hd1 hd9 (s := s) (G := G) with heq | ⟨rc, cl, hscan, _, hmask, heq⟩
  · rw [heq]
    exact GridSub.refl s
  · rw [heq]
    apply GridSub.setAt
    rw [CellSub, hmask, Finset.singleton_subset_iff]
    obtain ⟨_, hhd, _, _⟩ := scan_digit_none_some hscan
    exact has_digit_iff.mp hhd

theorem fu_one_false {s : Sudoku} {d : Nat} {G : List (Nat × Nat)}
    (h : (find_unambiguity s d G).2 = false) : (find_unambiguity s d G).1 = s := by
  rw [find_unambiguity] at h ⊢
  cases hscan : scan_digit s d G none with
  | none => rfl
  | some rc =>
    rw [hscan] at h
    cases h

theorem fu_one_true_lt {s : Sudoku} {d : Nat} {G : List (Nat × Nat)}
    (hd1 : 1 ≤ d) (hd9 : d ≤ 9) (h : (find_unambiguity s d G).2 = true) :
    totalLen (find_unambiguity s d G).1 < totalLen s := by
  rcases find_unambiguity_cases hd1 hd9 (s := s) (G := G) with heq | ⟨rc, cl, hscan, _, hmask, heq⟩
  · rw [heq] at h
    cases h
  · rw [heq]
    obtain ⟨_, hhd, hlen, _⟩ := scan_digit_none_some hscan
    have hdin : d ∈ maskBits (cellAt s rc.1 rc.2).digits := has_digit_iff.mp hhd
    have hsub : CellSub cl (cellAt s rc.1 rc.2) := by
      rw [CellSub, hmask, Finset.singleton_subset_iff]
      exact hdin
    apply totalLen_lt_of_strict (GridSub.setAt hsub)
    refine ⟨fin9 rc.1, fin9 rc.2, ?_⟩
    rw [setAt_cells, if_pos ⟨rfl, rfl⟩]
    apply mask_ssubset_of_sub_ne hsub
    intro heqc
    apply hlen
    rw [← heqc, len_eq_card, hmask, Finset.card_singleton]

theorem fu_extend {s0 : Sudoku} {st : Sudoku × Bool} {d : Nat} {G : List (Nat × Nat)}
    (hd1 : 1 ≤ d) (hd9 : d ≤ 9) (h : FUInv s0 st) :
    FUInv s0 ((find_unambiguity st.1 d G).1, (find_unambiguity st.1 d G).2 || st.2) := by
  obtain ⟨hsub, hfalse, htrue⟩ := h
  refine ⟨GridSub.trans (fu_one_sub hd1 hd9) hsub, ?_, ?_⟩
  · intro hch
    rw [Bool.or_eq_false_iff] at hch
    rw [fu_one_false hch.1]
    exact hfalse hch.2
  · intro hch
    rw [Bool.or_eq_true] at hch
    rcases hch with h1 | h2
    · calc totalLen (find_unambiguity st.1 d G).1 < totalLen st.1 :=
        fu_one_true_lt hd1 hd9 h1
      _ ≤ totalLen s0 := totalLen_le_of_sub hsub
    · calc totalLen (find_unambiguity st.1 d G).1 ≤ totalLen st.1 :=
        totalLen_le_of_sub (fu_one_sub hd1 hd9)
      _ < totalLen s0 := htrue h2

theorem fu_step_inv {s0 : Sudoku} {st : Sudoku × Bool} {i d : Nat}
    (hd1 : 1 ≤ d) (hd9 : d ≤ 9) (h : FUInv s0 st) : FUInv s0 (fu_step st i d) := by
  exact fu_extend hd1 hd9 (fu_extend hd1 hd9 (fu_extend hd1 hd9 h))

theorem find_unambiguities_inv (s : Sudoku) : FUInv s (find_unambiguities s) := by
  rw [find_unambiguities]
  apply foldl_inv
  · exact ⟨GridSub.refl s, fun _ => rfl, fun h => by cases h⟩
  · intro b i _ hP
    apply foldl_inv hP
    intro b2 d hd hP2
    have hd19 : 1 ≤ d ∧ d < 1 + 9 := List.mem_range'_1.mp hd
    exact fu_step_inv hd19.1 (by omega) hP2

/-! ### One propagation round and the fixpoint loop. -/

theorem simplified_some_elim {g s : Sudoku} {ch : Bool}
    (h : simplified g = some (s, ch)) :
    ∃ n cw, without_conflicts g = some (n, cw) ∧
      s = (find_unambiguities n).1 ∧ ch = ((find_unambiguities n).2 || cw) := by
  rw [simplified] at h
  obtain ⟨⟨n, cw⟩, hwc, hrest⟩ := Option.bind_eq_some.mp h
  simp only [Option.some.injEq, Prod.mk.injEq] at hrest
  exact ⟨n, cw, hwc, hrest.1.symm, hrest.2.symm⟩

theorem simplified_sub {g s : Sudoku} {ch : Bool} (h : simplified g = some (s, ch)) :
    GridSub s g := by
  obtain ⟨n, cw, hwc, hs, _⟩ := simplified_some_elim h
  rw [hs]
  exact GridSub.trans (find_unambiguities_inv n).1 (without_conflicts_inv hwc).1

theorem simplified_false_eq {g s : Sudoku} (h : simplified g = some (s, false)) :
    s = g := by
  obtain ⟨n, cw, hwc, hs, hch⟩ := simplified_some_elim h
  replace hch := hch.symm
  rw [Bool.or_eq_false_iff] at hch
  have hn : n = g := (without_conflicts_inv hwc).2.1 hch.2
  rw [hs, (find_unambiguities_inv n).2.1 hch.1, hn]

theorem simplified_true_lt {g s : Sudoku} (h : simplified g = some (s, true)) :
    totalLen s < totalLen g := by
  obtain ⟨n, cw, hwc, hs, hch⟩ := simplified_some_elim h
  replace hch := hch.symm
  rw [Bool.or_eq_true] at hch
  rcases hch with hfu | hcw
  · calc totalLen s = totalLen (find_unambiguities n).1 := by rw [hs]
    _ < totalLen n := (find_unambiguities_inv n).2.2 hfu
    _ ≤ totalLen g := totalLen_le_of_sub (without_conflicts_inv hwc).1
  · subst hcw
    calc totalLen s = totalLen (find_unambiguities n).1 := by rw [hs]
    _ ≤ totalLen n := totalLen_le_of_sub (find_unambiguities_inv n).1
    _ < totalLen g := wc_true_lt hwc

theorem simplify_loop_sub :
    ∀ {fuel : Nat} {g s : Sudoku}, simplify_loop fuel g = some (some s) →
      GridSub s g ∧ simplified s = some (s, false) := by
  intro fuel
  induction fuel with
  | zero => intro g s h; cases h
  | succ fuel ih =>
    intro g s h
    rw [simplify_loop] at h
    cases heq : simplified g with
    | none =>
      rw [heq] at h
      cases h
    | some p =>
      obtain ⟨s1, ch⟩ := p
      rw [heq] at h
      cases ch with
      | true =>
        replace h : simplify_loop fuel s1 = some (some s) := h
        obtain ⟨hsub, hfix⟩ := ih h
        exact ⟨GridSub.trans hsub (simplified_sub heq), hfix⟩
      | false =>
        replace h : (some (some s1) : Option (Option Sudoku)) = some (some s) := h
        simp only [Option.some.injEq] at h
        subst h
        have := simplified_false_eq heq
        subst this
        exact ⟨GridSub.refl _, heq⟩

theorem simplify_loop_adequate :
    ∀ (fuel : Nat) (g : Sudoku), totalLen g < fuel → simplify_loop fuel g ≠ none := by
  intro fuel
  induction fuel with
  | zero => intro g h; omega
  | succ fuel ih =>
    intro g h
    rw [simplify_loop]
    cases heq : simplified g with
    | none => simp
    | some p =>
      obtain ⟨s1, ch⟩ := p
      cases ch with
      | true =>
        show simplify_loop fuel s1 ≠ none
        apply ih
        have := simplified_true_lt heq
        omega
      | false =>
        show (some (some s1) : Option (Option Sudoku)) ≠ none
        simp

theorem fixpoint_spec {g s : Sudoku} (h : fixpoint g = some s) :
    GridSub s g ∧ simplified s = some (s, false) := by
  rw [fixpoint] at h
  cases heq : simplify_loop (totalLen g + 1) g with
  | none =>
    rw [heq] at h
    cases h
  | some r =>
    rw [heq] at h
    simp only at h
    subst h
    exact simplify_loop_sub heq

theorem fixpoint_of_fixed {s : Sudoku} (h : simplified s = some (s, false)) :
    fixpoint s = some s := by
  rw [fixpoint, simplify_loop, h]
  simp

/-! ### At an unchanged elimination pass, no singleton conflicts with its
groups. -/

theorem foldlM_option_back {α β : Type} {Q : β → Prop} {f : β → α → Option β} :
    ∀ {l : List α} {b0 b1 : β}, List.foldlM f b0 l = some b1 →
      (∀ b a b', a ∈ l → f b a = some b' → Q b' → Q b) → Q b1 → Q b0 := by
  intro l
  induction l with
  | nil =>
    intro b0 b1 h _ hq
    rw [List.foldlM_nil] at h
    cases h
    exact hq
  | cons a l ih =>
    intro b0 b1 h hs hq
    rw [List.foldlM_cons] at h
    obtain ⟨b', hb', hrest⟩ := Option.bind_eq_some.mp h
    exact hs b0 a b' (by simp) hb'
      (ih hrest (fun b x b2 hx hf hQ => hs b x b2 (by simp [hx]) hf hQ) hq)

theorem remove_d_at_flag_back {self : Sudoku} {r c d nr nc : Nat}
    {st st' : Sudoku × Bool} (h : remove_d_at self r c d st nr nc = some st')
    (hq : st'.2 = false) : st.2 = false := by
  rw [remove_d_at] at h
  by_cases hsame : nr = r ∧ nc = c
  · rw [if_pos hsame] at h
    cases h
    exact hq
  · rw [if_neg hsame] at h
    simp only at h
    by_cases hemp : ((cellAt st.1 nr nc).remove_digit d).is_empty = true
    · rw [if_pos hemp] at h
      cases h
    · rw [if_neg hemp] at h
      cases h
      simp only [Bool.or_eq_false_iff] at hq
      exact hq.1

theorem step3_flag_back {self : Sudoku} {r c d : Nat} {st st' : Sudoku × Bool} {i : Nat}
    (h : (do
        let st ← remove_d_at self r c d st r i
        let st ← remove_d_at self r c d st i c
        remove_d_at self r c d st ((quad_of r c).1 + i / 3) ((quad_of r c).2 + i % 3)) =
      some st')
    (hq : st'.2 = false) : st.2 = false := by
  obtain ⟨sA, hA, h2⟩ := Option.bind_eq_some.mp h
  obtain ⟨sB, hB, hC⟩ := Option.bind_eq_some.mp h2
  exact remove_d_at_flag_back hA
    (remove_d_at_flag_back hB (remove_d_at_flag_back hC hq))

theorem step3_fold_flag_back {self : Sudoku} {r c d : Nat} {st st' : Sudoku × Bool}
    {l : List Nat}
    (h : List.foldlM (fun st i => do
        let st ← remove_d_at self r c d st r i
        let st ← remove_d_at self r c d st i c
        remove_d_at self r c d st ((quad_of r c).1 + i / 3) ((quad_of r c).2 + i % 3))
      st l = some st')
    (hq : st'.2 = false) : st.2 = false :=
  @foldlM_option_back Nat (Sudoku × Bool) (fun x => x.2 = false) _ _ _ _ h
    (fun _ _ _ _ hf2 hQ2 => step3_flag_back hf2 hQ2) hq

theorem conflictStep_flag_back {self : Sudoku} {st st' : Sudoku × Bool} {rc : Nat × Nat}
    (hf : conflictStep self st rc = some st') (hq : st'.2 = false) : st.2 = false := by
  obtain ⟨r0, c0⟩ := rc
  simp only [conflictStep] at hf
  by_cases h0 : (cellAt self r0 c0).len = 0
  · rw [if_pos h0] at hf
    cases hf
  · rw [if_neg h0] at hf
    by_cases h1 : (cellAt self r0 c0).len = 1
    · rw [if_pos h1] at hf
      exact step3_fold_flag_back hf hq
    · rw [if_neg h1] at hf
      cases hf
      exact hq

theorem wc_fold_flag_back {self : Sudoku} {st st' : Sudoku × Bool}
    {l : List (Nat × Nat)}
    (h : List.foldlM (conflictStep self) st l = some st') (hq : st'.2 = false) :
    st.2 = false :=
  @foldlM_option_back (Nat × Nat) (Sudoku × Bool) (fun x => x.2 = false) _ _ _ _ h
    (fun _ _ _ _ hf2 hQ2 => conflictStep_flag_back hf2 hQ2) hq

theorem remove_d_at_noop {s : Sudoku} {r c d nr nc : Nat} {st st' : Sudoku × Bool}
    (hflag0 : st.2 = false) (hself : st.1 = s) (hflag : st'.2 = false)
    (h : remove_d_at s r c d st nr nc = some st') (hne : ¬(nr = r ∧ nc = c)) :
    (cellAt s nr nc).has_digit d = false := by
  rw [remove_d_at, if_neg hne] at h
  simp only at h
  by_cases hemp : ((cellAt st.1 nr nc).remove_digit d).is_empty = true
  · rw [if_pos hemp] at h
    cases h
  · rw [if_neg hemp] at h
    cases h
    simp only [Bool.or_eq_false_iff, hflag0] at hflag
    have heq : (cellAt st.1 nr nc).remove_digit d = cellAt s nr nc := by
      have := hflag.2
      rwa [Bool.not_eq_false', decide_eq_true_eq] at this
    rw [hself] at heq
    cases hhd : (cellAt s nr nc).has_digit d with
    | false => rfl
    | true =>
      exfalso
      have hdin := has_digit_iff.mp hhd
      have hmask := congrArg (fun cl => maskBits cl.digits) heq
      simp only [maskBits_remove] at hmask
      have : d ∈ maskBits (cellAt s nr nc).digits \ {d} := by
        rw [hmask]
        exact hdin
      simp at this

theorem wc_fixed_group_distinct {s : Sudoku}
    (hwc : without_conflicts s = some (s, false)) {p q : Nat × Nat}
    (hp1 : p.1 < 9) (hp2 : p.2 < 9) (hq1 : q.1 < 9) (hq2 : q.2 < 9)
    (hgroup : p.1 = q.1 ∨ p.2 = q.2 ∨ quad_of p.1 p.2 = quad_of q.1 q.2)
    (hne : p ≠ q) (hlen : (cellAt s p.1 p.2).len = 1) :
    (cellAt s q.1 q.2).has_digit ((cellAt s p.1 p.2).first_digit) = false := by
  obtain ⟨pr, pc⟩ := p
  obtain ⟨qr, qc⟩ := q
  simp only at hp1 hp2 hq1 hq2 hlen hgroup ⊢
  -- split the coordinate scan at (pr, pc)
  have hmem : ((pr, pc) : Nat × Nat) ∈ positions := mem_positions.mpr ⟨hp1, hp2⟩
  obtain ⟨l1, l2, hsplit⟩ := List.append_of_mem hmem
  rw [without_conflicts, hsplit] at hwc
  obtain ⟨bm, bm2, hl1, hstep, hl2⟩ := foldlM_option_decomp hwc
  -- the flag is false at every intermediate state of the successful run
  have hbm2flag : bm2.2 = false := wc_fold_flag_back hl2 rfl
  have hInit : WCInv s (s, false) := by
    refine ⟨GridSub.refl s, fun _ => rfl, ?_, fun _ _ => Or.inl rfl⟩
    intro hf
    cases hf
  have hbmInv : WCInv s bm :=
    foldlM_option_ind hl1 hInit (fun b a b' _ hPb hf => conflictStep_inv hPb hf)
  -- unfold the singleton branch of the scanned coordinate (pr, pc)
  simp only [conflictStep] at hstep
  rw [if_neg (by omega), if_pos hlen] at hstep
  -- pick the loop index whose removal targets (qr, qc)
  have htarget : ∃ i, i < 9 ∧
      ((pr, i) = ((qr, qc) : Nat × Nat) ∨ (i, pc) = ((qr, qc) : Nat × Nat) ∨
        ((quad_of pr pc).1 + i / 3, (quad_of pr pc).2 + i % 3) = ((qr, qc) : Nat × Nat)) := by
    rcases hgroup with hrow | hcol | hquad
    · exact ⟨qc, hq2, Or.inl (by rw [hrow])⟩
    · exact ⟨qr, hq1, Or.inr (Or.inl (by rw [hcol]))⟩
    · simp only [quad_of, Prod.mk.injEq] at hquad
      refine ⟨(qr - pr / 3 * 3) * 3 + (qc - pc / 3 * 3), by omega, Or.inr (Or.inr ?_)⟩
      simp only [quad_of, Prod.mk.injEq]
      constructor
      · omega
      · omega
  obtain ⟨i, hi9, hcase⟩ := htarget
  have himem : i ∈ List.range 9 := List.mem_range.mpr hi9
  obtain ⟨m1, m2, hmsplit⟩ := List.append_of_mem himem
  rw [hmsplit] at hstep
  obtain ⟨t0, t3, hm1, hstep3, hm2⟩ := foldlM_option_decomp hstep
  -- flags backwards from the final state
  have ht3flag : t3.2 = false := step3_fold_flag_back hm2 hbm2flag
  have ht0Inv : WCInv s t0 :=
    foldlM_option_ind hm1 hbmInv
      (fun b j b' _ hPb hf => by
        obtain ⟨sA, hA, h2⟩ := Option.bind_eq_some.mp hf
        obtain ⟨sB, hB, hC⟩ := Option.bind_eq_some.mp h2
        exact remove_d_at_inv (remove_d_at_inv (remove_d_at_inv hPb hA) hB) hC)
  obtain ⟨sA, hA, h2⟩ := Option.bind_eq_some.mp hstep3
  obtain ⟨sB, hB, hC⟩ := Option.bind_eq_some.mp h2
  have hsBflag : sB.2 = false := remove_d_at_flag_back hC ht3flag
  have hsAflag : sA.2 = false := remove_d_at_flag_back hB hsBflag
  have ht0flag : t0.2 = false := remove_d_at_flag_back hA hsAflag
  have ht0self : t0.1 = s := ht0Inv.2.1 ht0flag
  have hsAInv : WCInv s sA := remove_d_at_inv ht0Inv hA
  have hsBInv : WCInv s sB := remove_d_at_inv hsAInv hB
  have hsAself : sA.1 = s := hsAInv.2.1 hsAflag
  have hsBself : sB.1 = s := hsBInv.2.1 hsBflag
  have hnepq : ¬(qr = pr ∧ qc = pc) := by
    intro hcon
    apply hne
    simp only [Prod.mk.injEq]
    exact ⟨hcon.1.symm, hcon.2.symm⟩
  rcases hcase with hrowc | hcolc | hquadc
  · -- the row removal (pr, i) is the one that targets (qr, qc)
    simp only [Prod.mk.injEq] at hrowc
    obtain ⟨hqr, hqc⟩ := hrowc
    subst hqr
    subst hqc
    exact remove_d_at_noop ht0flag ht0self hsAflag hA hnepq
  · simp only [Prod.mk.injEq] at hcolc
    obtain ⟨hqr, hqc⟩ := hcolc
    subst hqr
    subst hqc
    exact remove_d_at_noop hsAflag hsAself hsBflag hB hnepq
  · simp only [Prod.mk.injEq] at hquadc
    obtain ⟨hqr, hqc⟩ := hquadc
    subst hqr
    subst hqc
    exact remove_d_at_noop hsBflag hsBself ht3flag hC hnepq

/-! ### A grid fixed by propagation that is not solved has a branch cell. -/

theorem fixed_wc {s : Sudoku} (h : simplified s = some (s, false)) :
    without_conflicts s = some (s, false) := by
  obtain ⟨n, cw, hwc, hs, hch⟩ := simplified_some_elim h
  replace hch := hch.symm
  rw [Bool.or_eq_false_iff] at hch
  have hsn : s = n := by rw [hs, (find_unambiguities_inv n).2.1 hch.1]
  subst hsn
  rw [hch.2] at hwc
  exact hwc

theorem wf_of_sub {s g : Sudoku} (hsub : GridSub s g) (hwf : g.wf) : s.wf := by
  intro rf cf
  rw [wf_iff]
  intro i hi
  exact wf_iff.mp (hwf rf cf) i (hsub rf cf hi)

theorem isGroup_same {G : List (Nat × Nat)} (hG : isGroup G) {p q : Nat × Nat}
    (hp : p ∈ G) (hq : q ∈ G) :
    p.1 = q.1 ∨ p.2 = q.2 ∨ quad_of p.1 p.2 = quad_of q.1 q.2 := by
  rcases hG with ⟨i, hi, rfl⟩ | ⟨i, hi, rfl⟩ | ⟨a, b, ha, hb, rfl⟩
  · left
    rw [(mem_rowPositions.mp hp).1, (mem_rowPositions.mp hq).1]
  · right
    left
    rw [(mem_colPositions.mp hp).1, (mem_colPositions.mp hq).1]
  · right
    right
    have h1 := mem_quadPositions.mp hp
    have h2 := mem_quadPositions.mp hq
    simp only [quad_of, Prod.mk.injEq]
    omega

theorem group_digits_nodup {s : Sudoku} {G : List (Nat × Nat)} (hnd : G.Nodup)
    (hdist : ∀ p ∈ G, ∀ q ∈ G, p ≠ q →
      (cellAt s p.1 p.2).first_digit ≠ (cellAt s q.1 q.2).first_digit) :
    ((G.map (fun rc => cellAt s rc.1 rc.2)).map Cell.first_digit).Nodup := by
  rw [List.map_map, List.Nodup, List.pairwise_map]
  exact List.Pairwise.imp_of_mem (fun ha hb hne => hdist _ ha _ hb hne) hnd

theorem is_solved_of_parts {s : Sudoku}
    (hfill : ∀ rf cf : Fin 9, (s.cells rf cf).len = 1) (hwf : s.wf)
    (hdist : ∀ G, isGroup G → ∀ p ∈ G, ∀ q ∈ G, p ≠ q →
      (cellAt s p.1 p.2).first_digit ≠ (cellAt s q.1 q.2).first_digit) :
    is_solved s = true := by
  have hfillAt : ∀ r c : Nat, (cellAt s r c).len = 1 := fun r c => hfill _ _
  have hrangeAt : ∀ r c : Nat, 1 ≤ (cellAt s r c).first_digit ∧
      (cellAt s r c).first_digit ≤ 9 := by
    intro r c
    have h1 := hfillAt r c
    have hmem : (cellAt s r c).first_digit ∈ maskBits (cellAt s r c).digits := by
      rw [singleton_maskBits h1]
      exact Finset.mem_singleton_self _
    exact wf_iff.mp (hwf _ _) _ hmem
  have hgroupdup : ∀ G, isGroup G →
      has_no_duplicates (G.map (fun rc => cellAt s rc.1 rc.2)) = true := by
    intro G hG
    apply no_dup_of_distinct
    · rw [List.length_map, isGroup_length hG]
    · intro c hc
      rw [List.mem_map] at hc
      obtain ⟨rc, _, rfl⟩ := hc
      exact hrangeAt _ _
    · exact group_digits_nodup (isGroup_nodup hG) (hdist G hG)
  rw [is_solved]
  simp only [Bool.and_eq_true]
  refine ⟨⟨⟨?_, ?_⟩, ?_⟩, ?_⟩
  · rw [List.all_eq_true]
    intro rc _
    rw [beq_iff_eq]
    exact hfillAt _ _
  · rw [List.all_eq_true]
    intro r _
    exact hgroupdup _ (Or.inl ⟨r, by simpa using List.mem_range.mp (by assumption), rfl⟩)
  · rw [List.all_eq_true]
    intro c _
    exact hgroupdup _ (Or.inr (Or.inl ⟨c, by simpa using List.mem_range.mp (by assumption), rfl⟩))
  · rw [List.all_eq_true]
    intro i hi
    rw [List.mem_range] at hi
    have h1 : (i / 3 * 3) / 3 * 3 = i / 3 * 3 := by omega
    have h2 : (i % 3 * 3) / 3 * 3 = i % 3 * 3 := by omega
    have hq : quadCells s (i / 3 * 3) (i % 3 * 3) =
        (quadPositions (i / 3 * 3) (i % 3 * 3)).map (fun rc => cellAt s rc.1 rc.2) := by
      rw [quadCells]
      simp only [quad_of]
      rw [h1, h2]
    rw [hq]
    exact hgroupdup _ (Or.inr (Or.inr ⟨i / 3, i % 3, by omega, by omega, rfl⟩))

theorem fixed_not_solved_branch {s : Sudoku} (hwf : s.wf)
    (hfix : simplified s = some (s, false)) (hns : is_solved s = false) :
    ∃ rf cf : Fin 9, 1 < (s.cells rf cf).len := by
  by_contra hcon
  push_neg at hcon
  have hwc := fixed_wc hfix
  have hnz : ∀ rf cf : Fin 9, (s.cells rf cf).digits ≠ 0 := fun rf cf =>
    wc_self_nonzero hwc rf cf
  have hfill : ∀ rf cf : Fin 9, (s.cells rf cf).len = 1 := by
    intro rf cf
    have h1 := hcon rf cf
    have h2 : ¬((s.cells rf cf).len = 0) := fun h0 => hnz rf cf (len_zero_iff.mp h0)
    omega
  have hfillAt : ∀ r c : Nat, (cellAt s r c).len = 1 := fun r c => hfill _ _
  have hdist : ∀ G, isGroup G → ∀ p ∈ G, ∀ q ∈ G, p ≠ q →
      (cellAt s p.1 p.2).first_digit ≠ (cellAt s q.1 q.2).first_digit := by
    intro G hG p hp q hq hne heq
    obtain ⟨hp1, hp2⟩ := isGroup_bounds hG hp
    obtain ⟨hq1, hq2⟩ := isGroup_bounds hG hq
    have hthis := wc_fixed_group_distinct hwc hp1 hp2 hq1 hq2
      (isGroup_same hG hp hq) hne (hfillAt p.1 p.2)
    have hqd := (singleton_props (hfillAt q.1 q.2)).1
    rw [← heq] at hqd
    rw [hthis] at hqd
    cases hqd
  have := is_solved_of_parts hfill hwf hdist
  rw [hns] at this
  cases this

theorem branch_foldl_some (f : Option (Nat × Nat × Cell) → (Nat × Nat × Cell) →
    Option (Nat × Nat × Cell))
    (hf : ∀ a x, (f (some a) x).isSome = true) :
    ∀ (l : List (Nat × Nat × Cell)) (a : Nat × Nat × Cell),
      (List.foldl f (some a) l).isSome = true := by
  intro l
  induction l with
  | nil => intro a; rfl
  | cons x rest ih =>
    intro a
    rw [List.foldl_cons]
    cases hstep : f (some a) x with
    | none =>
      have := hf a x
      rw [hstep] at this
      cases this
    | some b =>
      exact ih b

theorem branchCell_isSome {s : Sudoku}
    (h : ∃ rf cf : Fin 9, 1 < (s.cells rf cf).len) :
    (branchCell s).isSome = true := by
  obtain ⟨rf, cf, hlen⟩ := h
  have hmem : (((rf : Nat), (cf : Nat), s.cells rf cf) : Nat × Nat × Cell) ∈
      branch_candidates s := by
    rw [branch_candidates, List.mem_filter]
    constructor
    · rw [List.mem_map]
      refine ⟨((rf : Nat), (cf : Nat)), mem_positions.mpr ⟨rf.isLt, cf.isLt⟩, ?_⟩
      rw [cellAt_of_fin]
    · simpa using hlen
  rw [branchCell]
  cases hcand : branch_candidates s with
  | nil =>
    rw [hcand] at hmem
    cases hmem
  | cons x rest =>
    rw [List.foldl_cons]
    apply branch_foldl_some
    intro a y
    by_cases hc : y.2.2.len < a.2.2.len
    · simp [hc]
    · simp [hc]

/-! ### The branch cell is the first one of minimal cardinality. -/

theorem minFold_spec :
    ∀ (l : List (Nat × Nat × Cell)) (a : Nat × Nat × Cell),
      (∀ x ∈ l, 9 * a.1 + a.2.1 < 9 * x.1 + x.2.1) →
      l.Pairwise (fun x y => 9 * x.1 + x.2.1 < 9 * y.1 + y.2.1) →
      ∃ m, (l.foldl (fun acc x =>
          match acc with
          | none => some x
          | some b => if x.2.2.len < b.2.2.len then some x else some b) (some a)) = some m ∧
        (m = a ∨ m ∈ l) ∧ m.2.2.len ≤ a.2.2.len ∧ (∀ x ∈ l, m.2.2.len ≤ x.2.2.len) ∧
        (m.2.2.len = a.2.2.len → m = a) ∧
        (∀ x ∈ l, x.2.2.len = m.2.2.len → 9 * m.1 + m.2.1 ≤ 9 * x.1 + x.2.1) := by
  intro l
  induction l with
  | nil =>
    intro a _ _
    exact ⟨a, rfl, Or.inl rfl, le_refl _, by simp, fun _ => rfl, by simp⟩
  | cons x rest ih =>
    intro a ha hp
    rw [List.foldl_cons]
    have hax : 9 * a.1 + a.2.1 < 9 * x.1 + x.2.1 := ha x (by simp)
    have hxrest : ∀ y ∈ rest, 9 * x.1 + x.2.1 < 9 * y.1 + y.2.1 :=
      fun y hy => List.rel_of_pairwise_cons hp hy
    have hprest : rest.Pairwise (fun x y => 9 * x.1 + x.2.1 < 9 * y.1 + y.2.1) :=
      List.Pairwise.sublist (List.sublist_cons_self x rest) hp
    have hred : (match some a with
        | none => some x
        | some b => if x.2.2.len < b.2.2.len then some x else some b) =
          if x.2.2.len < a.2.2.len then some x else some a := rfl
    rw [hred]
    by_cases hlt : x.2.2.len < a.2.2.len
    · rw [if_pos hlt]
      obtain ⟨m, hfold, hmem, hkey, hall, hfirst, hidx⟩ := ih x hxrest hprest
      refine ⟨m, hfold, ?_, by omega, ?_, ?_, ?_⟩
      · rcases hmem with rfl | hm
        · exact Or.inr (by simp)
        · exact Or.inr (by simp [hm])
      · intro y hy
        rcases List.mem_cons.mp hy with rfl | hyl
        · exact hkey
        · exact hall y hyl
      · intro heq
        omega
      · intro y hy hkeq
        rcases List.mem_cons.mp hy with rfl | hyl
        · have := hfirst hkeq.symm
          rw [this]
        · exact hidx y hyl hkeq
    · rw [if_neg hlt]
      obtain ⟨m, hfold, hmem, hkey, hall, hfirst, hidx⟩ := ih a
        (fun y hy => lt_trans hax (hxrest y hy)) hprest
      refine ⟨m, hfold, ?_, hkey, ?_, hfirst, ?_⟩
      · rcases hmem with rfl | hm
        · exact Or.inl rfl
        · exact Or.inr (by simp [hm])
      · intro y hy
        rcases List.mem_cons.mp hy with rfl | hyl
        · omega
        · exact hall y hyl
      · intro y hy hkeq
        rcases List.mem_cons.mp hy with rfl | hyl
        · rcases hmem with rfl | hm
          · omega
          · exfalso
            have hmy : 9 * a.1 + a.2.1 < 9 * m.1 + m.2.1 :=
              (fun z hz => lt_trans hax (hxrest z hz)) m hm
            have hma : m ≠ a := by
              intro hcon
              rw [hcon] at hmy
              omega
            have : m.2.2.len ≠ a.2.2.len := fun hcon => hma (hfirst hcon)
            omega
        · exact hidx y hyl hkeq

theorem mem_branch_candidates {s : Sudoku} {x : Nat × Nat × Cell} :
    x ∈ branch_candidates s ↔
      x.1 < 9 ∧ x.2.1 < 9 ∧ x.2.2 = cellAt s x.1 x.2.1 ∧ 1 < x.2.2.len := by
  obtain ⟨r, c, cl⟩ := x
  rw [branch_candidates, List.mem_filter, List.mem_map]
  simp only [decide_eq_true_eq]
  constructor
  · rintro ⟨⟨rc, hrc, heq⟩, hlen⟩
    simp only [Prod.mk.injEq] at heq
    obtain ⟨h1, h2, h3⟩ := heq
    have hb := mem_positions.mp hrc
    subst h1
    subst h2
    subst h3
    exact ⟨hb.1, hb.2, rfl, hlen⟩
  · rintro ⟨h1, h2, h3, h4⟩
    refine ⟨⟨(r, c), mem_positions.mpr ⟨h1, h2⟩, ?_⟩, h4⟩
    show ((r, c, cellAt s r c) : Nat × Nat × Cell) = (r, c, cl)
    rw [h3]

theorem positions_idx_sorted :
    positions.Pairwise (fun p q => 9 * p.1 + p.2 < 9 * q.1 + q.2) := by
  decide

theorem branch_candidates_sorted (s : Sudoku) :
    (branch_candidates s).Pairwise (fun x y => 9 * x.1 + x.2.1 < 9 * y.1 + y.2.1) := by
  rw [branch_candidates]
  apply List.Pairwise.sublist (List.filter_sublist _)
  rw [List.pairwise_map]
  exact positions_idx_sorted

set_option maxHeartbeats 1000000 in
theorem branchCell_spec {s : Sudoku} {m : Nat × Nat × Cell}
    (h : branchCell s = some m) :
    m.2.2 = cellAt s m.1 m.2.1 ∧ m.1 < 9 ∧ m.2.1 < 9 ∧ 1 < m.2.2.len ∧
      ∀ r2 c2 : Nat, r2 < 9 → c2 < 9 → 1 < (cellAt s r2 c2).len →
        m.2.2.len ≤ (cellAt s r2 c2).len ∧
          ((cellAt s r2 c2).len = m.2.2.len → 9 * m.1 + m.2.1 ≤ 9 * r2 + c2) := by
  rw [branchCell] at h
  cases hcand : branch_candidates s with
  | nil =>
    rw [hcand] at h
    cases h
  | cons x rest =>
    rw [hcand, List.foldl_cons] at h
    have hsorted := branch_candidates_sorted s
    rw [hcand] at hsorted
    obtain ⟨m2, hfold, hmem, hkey, hall, hfirst, hidx⟩ :=
      minFold_spec rest x (fun y hy => List.rel_of_pairwise_cons hsorted hy)
        (List.Pairwise.sublist (List.sublist_cons_self x rest) hsorted)
    rw [hfold] at h
    replace h := Option.some.inj h
    subst h
    have hmemc : m2 ∈ branch_candidates s := by
      rw [hcand]
      rcases hmem with rfl | hm
      · simp
      · simp [hm]
    obtain ⟨hm1, hm2f, hm3, hm4⟩ := mem_branch_candidates.mp hmemc
    refine ⟨hm3, hm1, hm2f, hm4, ?_⟩
    intro r2 c2 hr2 hc2 hlen2
    have hcmem : ((r2, c2, cellAt s r2 c2) : Nat × Nat × Cell) ∈ branch_candidates s :=
      mem_branch_candidates.mpr ⟨hr2, hc2, rfl, hlen2⟩
    rw [hcand] at hcmem
    rcases List.mem_cons.mp hcmem with heqx | hrest
    · have hcell : cellAt s r2 c2 = x.2.2 := congrArg (fun t => t.2.2) heqx
      have hr2x : r2 = x.1 := congrArg (fun t => t.1) heqx
      have hc2x : c2 = x.2.1 := congrArg (fun t => t.2.1) heqx
      constructor
      · rw [hcell]
        exact hkey
      · intro hkeq
        rw [hcell] at hkeq
        have hmx : m2 = x := hfirst hkeq.symm
        rw [hr2x, hc2x, hmx]
    · constructor
      · exact hall _ hrest
      · intro hkeq
        exact hidx _ hrest hkeq

/-! ### The two children of a branch step shrink the search measure. -/

theorem excludedChild_sub {s : Sudoku} {r c : Nat} {cell : Cell}
    (hcell : cell = cellAt s r c) (hlen : 1 < cell.len) :
    GridSub (excludedChild s r c cell) s ∧
      totalLen (excludedChild s r c cell) < totalLen s := by
  have hnz : cell.digits ≠ 0 := by
    intro h0
    rw [← len_zero_iff] at h0
    omega
  have hfd := (first_digit_spec hnz).1
  have hsub : CellSub (cell.remove_digit cell.first_digit) (cellAt s r c) := by
    rw [CellSub, maskBits_remove, hcell]
    exact Finset.sdiff_subset
  refine ⟨GridSub.setAt hsub, ?_⟩
  apply totalLen_lt_of_strict (GridSub.setAt hsub)
  refine ⟨fin9 r, fin9 c, ?_⟩
  rw [setAt_cells, if_pos ⟨rfl, rfl⟩]
  have hcc : s.cells (fin9 r) (fin9 c) = cellAt s r c := rfl
  rw [hcc, ← hcell]
  rw [maskBits_remove]
  exact Finset.sdiff_ssubset (Finset.singleton_subset_iff.mpr hfd)
    (Finset.singleton_nonempty _)

theorem fixedChild_sub {s : Sudoku} {r c : Nat} {cell : Cell} (hwf : s.wf)
    (hcell : cell = cellAt s r c) (hlen : 1 < cell.len) :
    GridSub (fixedChild s r c cell) s ∧
      totalLen (fixedChild s r c cell) < totalLen s := by
  have hnz : cell.digits ≠ 0 := by
    intro h0
    rw [← len_zero_iff] at h0
    omega
  have hfd := (first_digit_spec hnz).1
  have hfd19 : 1 ≤ cell.first_digit ∧ cell.first_digit ≤ 9 := by
    apply wf_iff.mp _ _ hfd
    rw [hcell]
    exact hwf _ _
  obtain ⟨cl, hcl, hmask⟩ := from_digit_eq_some hfd19.1 hfd19.2
  have hval : (Cell.from_digit cell.first_digit).getD cell = cl := by
    rw [hcl]
    rfl
  have hsub : CellSub cl (cellAt s r c) := by
    rw [CellSub, hmask, Finset.singleton_subset_iff, ← hcell]
    exact hfd
  have hgs : GridSub (fixedChild s r c cell) s := by
    simp only [fixedChild]
    rw [hval]
    exact GridSub.setAt hsub
  refine ⟨hgs, ?_⟩
  apply totalLen_lt_of_strict hgs
  refine ⟨fin9 r, fin9 c, ?_⟩
  simp only [fixedChild]
  rw [hval, setAt_cells, if_pos ⟨rfl, rfl⟩]
  have hcc : s.cells (fin9 r) (fin9 c) = cellAt s r c := rfl
  rw [hcc]
  apply mask_ssubset_of_sub_ne hsub
  intro heq
  rw [heq] at hmask
  rw [hcell] at hlen
  rw [len_eq_card, hmask, Finset.card_singleton] at hlen
  omega

theorem stackMeasure_cons (g : Sudoku) (stack : List Sudoku) :
    stackMeasure (g :: stack) = 3 ^ totalLen g + stackMeasure stack := by
  simp [stackMeasure]

set_option maxHeartbeats 1000000 in
theorem children_stack_lt {g s : Sudoku} {r c : Nat} {cell : Cell}
    (rest : List Sudoku) (hwf : g.wf) (hfx : fixpoint g = some s)
    (hbc : branchCell s = some (r, c, cell)) :
    stackMeasure (fixedChild s r c cell :: excludedChild s r c cell :: rest) <
      stackMeasure (g :: rest) ∧
      (fixedChild s r c cell).wf ∧ (excludedChild s r c cell).wf ∧ s.wf := by
  obtain ⟨hsubg, _⟩ := fixpoint_spec hfx
  have hswf : s.wf := wf_of_sub hsubg hwf
  obtain ⟨hcell, _, _, hlen, _⟩ := branchCell_spec hbc
  simp only at hcell hlen
  have h1 : ∀ rr cc : Fin 9, (s.cells rr cc).len ≤ ∑ c2 : Fin 9, (s.cells rr c2).len :=
    fun rr cc => @Finset.single_le_sum (Fin 9) Nat _ (fun c2 => (s.cells rr c2).len)
      Finset.univ (fun i _ => Nat.zero_le _) cc (Finset.mem_univ cc)
  have h2 : ∀ rr : Fin 9, (∑ c2 : Fin 9, (s.cells rr c2).len) ≤
      ∑ r2 : Fin 9, ∑ c2 : Fin 9, (s.cells r2 c2).len :=
    fun rr => @Finset.single_le_sum (Fin 9) Nat _
      (fun r2 => ∑ c2 : Fin 9, (s.cells r2 c2).len)
      Finset.univ (fun i _ => Nat.zero_le _) rr (Finset.mem_univ rr)
  have hclen : cell.len ≤ totalLen s := by
    rw [hcell]
    show (s.cells (fin9 r) (fin9 c)).len ≤ totalLen s
    rw [totalLen]
    exact le_trans (h1 (fin9 r) (fin9 c)) (h2 (fin9 r))
  obtain ⟨hfsub, hflt⟩ := fixedChild_sub hswf hcell hlen
  obtain ⟨hesub, helt⟩ := excludedChild_sub hcell hlen
  refine ⟨?_, wf_of_sub hfsub hswf, wf_of_sub hesub hswf, hswf⟩
  rw [stackMeasure_cons, stackMeasure_cons, stackMeasure_cons]
  have hts : totalLen s ≤ totalLen g := totalLen_le_of_sub hsubg
  have hpos : 1 ≤ totalLen s := by omega
  have h3 : (3 : Nat) ^ totalLen s = 3 * 3 ^ (totalLen s - 1) := by
    calc (3 : Nat) ^ totalLen s = 3 ^ ((totalLen s - 1) + 1) := by
          rw [show (totalLen s - 1) + 1 = totalLen s by omega]
    _ = 3 ^ (totalLen s - 1) * 3 := pow_succ 3 _
    _ = 3 * 3 ^ (totalLen s - 1) := Nat.mul_comm _ _
  have hcp : 1 ≤ (3 : Nat) ^ (totalLen s - 1) := Nat.one_le_pow _ _ (by omega)
  have hf3 : (3 : Nat) ^ totalLen (fixedChild s r c cell) ≤ 3 ^ (totalLen s - 1) :=
    Nat.pow_le_pow_right (by omega) (by omega)
  have he3 : (3 : Nat) ^ totalLen (excludedChild s r c cell) ≤ 3 ^ (totalLen s - 1) :=
    Nat.pow_le_pow_right (by omega) (by omega)
  have hg3 : (3 : Nat) ^ totalLen s ≤ 3 ^ totalLen g :=
    Nat.pow_le_pow_right (by omega) hts
  omega

/-! ### Termination and soundness of the produce-next loop. -/

theorem nextFuel_cons_prune {fuel : Nat} {g : Sudoku} {rest : List Sudoku}
    (hfx : fixpoint g = none) :
    nextFuel (fuel + 1) (g :: rest) = nextFuel fuel rest := by
  rw [nextFuel, hfx]

theorem nextFuel_cons_yield {fuel : Nat} {g s : Sudoku} {rest : List Sudoku}
    (hfx : fixpoint g = some s) (hsol : is_solved s = true) :
    nextFuel (fuel + 1) (g :: rest) = some (some (s, rest)) := by
  rw [nextFuel, hfx]
  simp [hsol]

theorem nextFuel_cons_nobranch {fuel : Nat} {g s : Sudoku} {rest : List Sudoku}
    (hfx : fixpoint g = some s) (hsol : is_solved s = false)
    (hbc : branchCell s = none) :
    nextFuel (fuel + 1) (g :: rest) = some none := by
  rw [nextFuel, hfx]
  simp [hsol, hbc]

theorem nextFuel_cons_branch {fuel : Nat} {g s : Sudoku} {rest : List Sudoku}
    {r c : Nat} {cell : Cell} (hfx : fixpoint g = some s)
    (hsol : is_solved s = false) (hbc : branchCell s = some (r, c, cell)) :
    nextFuel (fuel + 1) (g :: rest) =
      nextFuel fuel (fixedChild s r c cell :: excludedChild s r c cell :: rest) := by
  rw [nextFuel, hfx]
  simp [hsol, hbc]

theorem nextFuel_adequate :
    ∀ (fuel : Nat) (stack : List Sudoku), stackMeasure stack < fuel →
      (∀ g ∈ stack, g.wf) → nextFuel fuel stack ≠ none := by
  intro fuel
  induction fuel with
  | zero => intro stack h _; omega
  | succ fuel ih =>
    intro stack hm hwf
    cases stack with
    | nil => simp [nextFuel]
    | cons g rest =>
      have hgwf : g.wf := hwf g (by simp)
      have hrestwf : ∀ m ∈ rest, m.wf := fun m hm2 => hwf m (by simp [hm2])
      have hpos : 1 ≤ (3 : Nat) ^ totalLen g := Nat.one_le_pow _ _ (by omega)
      rw [stackMeasure_cons] at hm
      cases hfx : fixpoint g with
      | none =>
        rw [nextFuel_cons_prune hfx]
        apply ih rest (by omega) hrestwf
      | some s =>
        cases hsol : is_solved s with
        | true =>
          rw [nextFuel_cons_yield hfx hsol]
          simp
        | false =>
          cases hbc : branchCell s with
          | none =>
            rw [nextFuel_cons_nobranch hfx hsol hbc]
            simp
          | some m =>
            obtain ⟨r, c, cell⟩ := m
            rw [nextFuel_cons_branch hfx hsol hbc]
            obtain ⟨hlt, hfwf, hewf, _⟩ := children_stack_lt rest hgwf hfx hbc
            apply ih _ ?_ ?_
            · have hgr := stackMeasure_cons g rest
              omega
            · intro m hm2
              rcases List.mem_cons.mp hm2 with rfl | hm3
              · exact hfwf
              · rcases List.mem_cons.mp hm3 with rfl | hm4
                · exact hewf
                · exact hrestwf m hm4

theorem nextFuel_sound {g0 : Sudoku} :
    ∀ {fuel : Nat} {stack : List Sudoku} {s : Sudoku} {rest : List Sudoku},
      nextFuel fuel stack = some (some (s, rest)) →
      (∀ m ∈ stack, GridSub m g0) →
      is_solved s = true ∧ GridSub s g0 ∧ ∀ m ∈ rest, GridSub m g0 := by
  intro fuel
  induction fuel with
  | zero => intro stack s rest h _; cases h
  | succ fuel ih =>
    intro stack s rest h hsub
    cases stack with
    | nil =>
      rw [nextFuel] at h
      cases h
    | cons g tail =>
      have hgsub : GridSub g g0 := hsub g (by simp)
      have htail : ∀ m ∈ tail, GridSub m g0 := fun m hm => hsub m (by simp [hm])
      cases hfx : fixpoint g with
      | none =>
        rw [nextFuel_cons_prune hfx] at h
        exact ih h htail
      | some sp =>
        have hspsub : GridSub sp g0 := GridSub.trans (fixpoint_spec hfx).1 hgsub
        cases hsol : is_solved sp with
        | true =>
          rw [nextFuel_cons_yield hfx hsol] at h
          simp only [Option.some.injEq, Prod.mk.injEq] at h
          obtain ⟨h1, h2⟩ := h
          subst h1
          subst h2
          exact ⟨hsol, hspsub, htail⟩
        | false =>
          cases hbc : branchCell sp with
          | none =>
            rw [nextFuel_cons_nobranch hfx hsol hbc] at h
            cases h
          | some m =>
            obtain ⟨r, c, cell⟩ := m
            rw [nextFuel_cons_branch hfx hsol hbc] at h
            apply ih h
            obtain ⟨hcell, _, _, hlen, _⟩ := branchCell_spec hbc
            simp only at hcell hlen
            intro m hm
            rcases List.mem_cons.mp hm with rfl | hm2
            · -- the fixed child
              have hnz : cell.digits ≠ 0 := by
                intro h0
                rw [← len_zero_iff] at h0
                omega
              have hfd := (first_digit_spec hnz).1
              have hval : CellSub ((Cell.from_digit cell.first_digit).getD cell)
                  (cellAt sp r c) := by
                cases hfdd : Cell.from_digit cell.first_digit with
                | none =>
                  rw [Option.getD_none, hcell]
                  exact Finset.Subset.refl _
                | some cl =>
                  rw [Option.getD_some]
                  rw [Cell.from_digit] at hfdd
                  by_cases hd : cell.first_digit = 0 ∨ cell.first_digit > 9
                  · rw [dif_pos hd] at hfdd
                    cases hfdd
                  · rw [dif_neg hd] at hfdd
                    simp only [Option.some.injEq] at hfdd
                    subst hfdd
                    rw [CellSub, maskBits_two_pow (by omega), Finset.singleton_subset_iff,
                      ← hcell]
                    exact hfd
              exact GridSub.trans (GridSub.setAt hval) hspsub
            · rcases List.mem_cons.mp hm2 with rfl | hm3
              · have hsub2 : CellSub (cell.remove_digit cell.first_digit)
                    (cellAt sp r c) := by
                  rw [CellSub, maskBits_remove, hcell]
                  exact Finset.sdiff_subset
                exact GridSub.trans (GridSub.setAt hsub2) hspsub
              · exact htail m hm3

theorem nextFuel_measure :
    ∀ {fuel : Nat} {stack : List Sudoku} {s : Sudoku} {rest : List Sudoku},
      nextFuel fuel stack = some (some (s, rest)) → (∀ m ∈ stack, m.wf) →
      (∀ m ∈ rest, m.wf) ∧ stackMeasure rest < stackMeasure stack := by
  intro fuel
  induction fuel with
  | zero => intro stack s rest h _; cases h
  | succ fuel ih =>
    intro stack s rest h hwf
    cases stack with
    | nil =>
      rw [nextFuel] at h
      cases h
    | cons g tail =>
      have hgwf : g.wf := hwf g (by simp)
      have htail : ∀ m ∈ tail, m.wf := fun m hm => hwf m (by simp [hm])
      have hpos : 1 ≤ (3 : Nat) ^ totalLen g := Nat.one_le_pow _ _ (by omega)
      cases hfx : fixpoint g with
      | none =>
        rw [nextFuel_cons_prune hfx] at h
        obtain ⟨hw, hlt⟩ := ih h htail
        rw [stackMeasure_cons]
        exact ⟨hw, by omega⟩
      | some sp =>
        cases hsol : is_solved sp with
        | true =>
          rw [nextFuel_cons_yield hfx hsol] at h
          simp only [Option.some.injEq, Prod.mk.injEq] at h
          obtain ⟨h1, h2⟩ := h
          subst h1
          subst h2
          rw [stackMeasure_cons]
          exact ⟨htail, by omega⟩
        | false =>
          cases hbc : branchCell sp with
          | none =>
            rw [nextFuel_cons_nobranch hfx hsol hbc] at h
            cases h
          | some m =>
            obtain ⟨r, c, cell⟩ := m
            rw [nextFuel_cons_branch hfx hsol hbc] at h
            obtain ⟨hclt, hfwf, hewf, _⟩ := children_stack_lt tail hgwf hfx hbc
            have hcwf : ∀ m ∈ fixedChild sp r c cell :: excludedChild sp r c cell ::
                tail, m.wf := by
              intro m hm
              rcases List.mem_cons.mp hm with rfl | hm2
              · exact hfwf
              · rcases List.mem_cons.mp hm2 with rfl | hm3
                · exact hewf
                · exact htail m hm3
            obtain ⟨hw, hlt⟩ := ih h hcwf
            exact ⟨hw, by omega⟩

/-! ### Draining the iterator. -/

theorem next_solution_some {stack : List Sudoku} {p : Sudoku × List Sudoku}
    (h : next_solution stack = some p) :
    nextFuel (stackMeasure stack + 1) stack = some (some p) := by
  rw [next_solution] at h
  cases heq : nextFuel (stackMeasure stack + 1) stack with
  | none =>
    rw [heq] at h
    cases h
  | some r =>
    rw [heq] at h
    replace h : r = some p := h
    rw [h]

theorem solutionsFuel_sound {g0 : Sudoku} :
    ∀ {fuel : Nat} {stack : List Sudoku} {out : List Sudoku},
      solutionsFuel fuel stack = some out → (∀ m ∈ stack, GridSub m g0) →
      ∀ s ∈ out, is_solved s = true ∧ GridSub s g0 := by
  intro fuel
  induction fuel with
  | zero => intro stack out h _; cases h
  | succ fuel ih =>
    intro stack out h hsub
    rw [solutionsFuel] at h
    cases hns : next_solution stack with
    | none =>
      rw [hns] at h
      replace h : (some [] : Option (List Sudoku)) = some out := h
      cases h
      simp
    | some p =>
      obtain ⟨s, rest⟩ := p
      rw [hns] at h
      replace h : (solutionsFuel fuel rest).map (fun l => s :: l) = some out := h
      obtain ⟨l, hl, hout⟩ := Option.map_eq_some'.mp h
      subst hout
      obtain ⟨hsol, hssub, hrest⟩ := nextFuel_sound (next_solution_some hns) hsub
      intro x hx
      rcases List.mem_cons.mp hx with rfl | hxl
      · exact ⟨hsol, hssub⟩
      · exact ih hl hrest x hxl

theorem solutionsFuel_adequate :
    ∀ (fuel : Nat) (stack : List Sudoku), stackMeasure stack < fuel →
      (∀ m ∈ stack, m.wf) → solutionsFuel fuel stack ≠ none := by
  intro fuel
  induction fuel with
  | zero => intro stack h _; omega
  | succ fuel ih =>
    intro stack hm hwf
    rw [solutionsFuel]
    cases hns : next_solution stack with
    | none => simp
    | some p =>
      obtain ⟨s, rest⟩ := p
      obtain ⟨hrwf, hrlt⟩ := nextFuel_measure (next_solution_some hns) hwf
      have hne := ih rest (by omega) hrwf
      show (solutionsFuel fuel rest).map (fun l => s :: l) ≠ none
      intro hcon
      rw [Option.map_eq_none'] at hcon
      exact hne hcon

/-! ### Solved grids are fixpoints of propagation. -/

theorem Cell.remove_noop {c : Cell} {d : Nat} (h : c.has_digit d = false) :
    c.remove_digit d = c := by
  apply Cell.ext_mask
  rw [maskBits_remove]
  apply Finset.sdiff_eq_self_iff_disjoint.mpr
  rw [Finset.disjoint_singleton_right]
  intro hmem
  rw [has_digit_iff.mpr hmem] at h
  cases h

theorem option_bind3 {α : Type} {o1 : Option α} {f2 f3 : α → Option α} {a b c : α}
    (h1 : o1 = some a) (h2 : f2 a = some b) (h3 : f3 b = some c) :
    (do
      let x ← o1
      let y ← f2 x
      f3 y) = some c := by
  rw [h1]
  show f2 a >>= f3 = some c
  rw [h2]
  show f3 b = some c
  exact h3

theorem solved_cell_nonempty {g : Sudoku} (hs : is_solved g = true) (r c : Nat) :
    (cellAt g r c).is_empty = false := by
  cases he : (cellAt g r c).is_empty with
  | false => rfl
  | true =>
    exfalso
    have h0 := is_empty_iff.mp he
    rw [← len_zero_iff] at h0
    rw [solved_len1 hs r c] at h0
    omega

theorem solved_remove_noop {g : Sudoku} (hs : is_solved g = true) {r c : Nat}
    (hr : r < 9) (hc : c < 9) (st2 : Sudoku × Bool) (nr nc : Nat)
    (hnr : nr < 9) (hnc : nc < 9)
    (hgrp : nr = r ∨ nc = c ∨ quad_of nr nc = quad_of r c)
    (hP2 : st2.1 = g ∧ st2.2 = false) :
    ∃ st', remove_d_at g r c (cellAt g r c).first_digit st2 nr nc = some st' ∧
      st'.1 = g ∧ st'.2 = false := by
  rw [remove_d_at]
  by_cases hsame : nr = r ∧ nc = c
  · rw [if_pos hsame]
    exact ⟨st2, rfl, hP2⟩
  · rw [if_neg hsame]
    simp only
    have hne : ((nr, nc) : Nat × Nat) ≠ (r, c) := by
      intro hcon
      simp only [Prod.mk.injEq] at hcon
      exact hsame hcon
    have hdistinct : (cellAt g nr nc).has_digit (cellAt g r c).first_digit = false := by
      have hGrp : ∃ G, isGroup G ∧ ((nr, nc) : Nat × Nat) ∈ G ∧
          ((r, c) : Nat × Nat) ∈ G := by
        rcases hgrp with h1 | h1 | h1
        · exact ⟨rowPositions r, Or.inl ⟨r, hr, rfl⟩,
            mem_rowPositions.mpr ⟨h1, hnc⟩, mem_rowPositions.mpr ⟨rfl, hc⟩⟩
        · exact ⟨colPositions c, Or.inr (Or.inl ⟨c, hc, rfl⟩),
            mem_colPositions.mpr ⟨h1, hnr⟩, mem_colPositions.mpr ⟨rfl, hr⟩⟩
        · refine ⟨quadPositions (r / 3 * 3) (c / 3 * 3),
            Or.inr (Or.inr ⟨r / 3, c / 3, by omega, by omega, rfl⟩), ?_, ?_⟩
          · simp only [quad_of, Prod.mk.injEq] at h1
            rw [mem_quadPositions]
            simp only
            omega
          · rw [mem_quadPositions]
            simp only
            omega
      obtain ⟨G, hG, hmem1, hmem2⟩ := hGrp
      have hdd := solved_group_distinct hs hG hmem1 hmem2 hne
      simp only [digitAt] at hdd
      have hmask := singleton_maskBits (solved_len1 hs nr nc)
      cases hhd : (cellAt g nr nc).has_digit (cellAt g r c).first_digit with
      | false => rfl
      | true =>
        exfalso
        have hin := has_digit_iff.mp hhd
        rw [hmask, Finset.mem_singleton] at hin
        exact hdd hin.symm
    rw [hP2.1, Cell.remove_noop hdistinct, solved_cell_nonempty hs nr nc]
    simp only [Bool.false_eq_true, if_false]
    refine ⟨_, rfl, ?_, ?_⟩
    · exact setAt_self_eq _ _ _ _ rfl
    · rw [hP2.2]
      simp

theorem solved_wc {g : Sudoku} (hs : is_solved g = true) :
    without_conflicts g = some (g, false) := by
  have hfill : ∀ r c : Nat, (cellAt g r c).len = 1 := solved_len1 hs
  have hfold : ∃ b1, List.foldlM (conflictStep g) ((g, false) : Sudoku × Bool)
      positions = some b1 ∧ b1.1 = g ∧ b1.2 = false := by
    apply @foldlM_option_total (Nat × Nat) (Sudoku × Bool)
      (fun st2 => st2.1 = g ∧ st2.2 = false) _ _ _ ⟨rfl, rfl⟩
    intro st rc hmem hP
    obtain ⟨r, c⟩ := rc
    have hb := mem_positions.mp hmem
    simp only at hb
    simp only [conflictStep]
    rw [if_neg (by rw [hfill r c]; omega), if_pos (hfill r c)]
    apply @foldlM_option_total Nat (Sudoku × Bool)
      (fun st2 => st2.1 = g ∧ st2.2 = false) _ _ _ hP
    intro st2 i hi hP2
    rw [List.mem_range] at hi
    obtain ⟨stA, hA, hPA⟩ :=
      solved_remove_noop hs hb.1 hb.2 st2 r i hb.1 hi (Or.inl rfl) hP2
    obtain ⟨stB, hB, hPB⟩ :=
      solved_remove_noop hs hb.1 hb.2 stA i c hi hb.2 (Or.inr (Or.inl rfl)) hPA
    have hquadgrp : (r / 3 * 3 + i / 3) = r ∨ (c / 3 * 3 + i % 3) = c ∨
        quad_of (r / 3 * 3 + i / 3) (c / 3 * 3 + i % 3) = quad_of r c := by
      right
      right
      simp only [quad_of, Prod.mk.injEq]
      omega
    obtain ⟨stC, hC, hPC⟩ :=
      solved_remove_noop hs hb.1 hb.2 stB (r / 3 * 3 + i / 3) (c / 3 * 3 + i % 3)
        (by omega) (by omega) hquadgrp hPB
    exact ⟨stC, option_bind3 hA hB hC, hPC⟩
  obtain ⟨b1, hb1, hP1, hP2⟩ := hfold
  rw [without_conflicts, hb1]
  have : b1 = (g, false) := by
    obtain ⟨x, y⟩ := b1
    simp only at hP1 hP2
    rw [hP1, hP2]
  rw [this]

theorem scan_none_of_len1 {s : Sudoku} {d : Nat} :
    ∀ {G : List (Nat × Nat)}, (∀ p ∈ G, (cellAt s p.1 p.2).len = 1) →
      scan_digit s d G none = none := by
  intro G
  induction G with
  | nil => intro _; rfl
  | cons x rest ih =>
    intro hall
    rw [scan_digit]
    cases hhd : (cellAt s x.1 x.2).has_digit d with
    | false =>
      simp only [hhd, Bool.not_false, if_true]
      exact ih (fun p hp => hall p (by simp [hp]))
    | true =>
      simp only [hhd, Bool.not_true]
      rw [if_neg (by simp), if_pos (hall x (by simp))]

theorem solved_fu {g : Sudoku} (hs : is_solved g = true) :
    find_unambiguities g = (g, false) := by
  have hone : ∀ d G, find_unambiguity g d G = (g, false) := by
    intro d G
    rw [find_unambiguity, scan_none_of_len1 (fun p _ => solved_len1 hs p.1 p.2)]
  rw [find_unambiguities]
  have hstep : ∀ (st : Sudoku × Bool) (i d : Nat), st = (g, false) →
      fu_step st i d = (g, false) := by
    intro st i d hst
    subst hst
    rw [fu_step]
    simp only [hone]
    rfl
  apply @foldl_inv Nat (Sudoku × Bool) (fun st => st = (g, false)) _ _ _ rfl
  intro b i _ hP
  apply @foldl_inv Nat (Sudoku × Bool) (fun st => st = (g, false)) _ _ _ hP
  intro b2 d _ hP2
  exact hstep b2 i d hP2

theorem solved_simplified {g : Sudoku} (hs : is_solved g = true) :
    simplified g = some (g, false) := by
  rw [simplified, solved_wc hs]
  show (some ((find_unambiguities g).1, (find_unambiguities g).2 || false) :
    Option (Sudoku × Bool)) = some (g, false)
  rw [solved_fu hs]
  rfl

theorem solved_fixpoint {g : Sudoku} (hs : is_solved g = true) :
    fixpoint g = some g :=
  fixpoint_of_fixed (solved_simplified hs)

/-! ### Propagation preserves every compatible complete solution. -/

theorem group_of_removal {r c nr nc : Nat} (hr : r < 9) (hc : c < 9)
    (hnr : nr < 9) (hnc : nc < 9)
    (hgrp : nr = r ∨ nc = c ∨ quad_of nr nc = quad_of r c) :
    ∃ G, isGroup G ∧ ((nr, nc) : Nat × Nat) ∈ G ∧ ((r, c) : Nat × Nat) ∈ G := by
  rcases hgrp with h1 | h1 | h1
  · exact ⟨rowPositions r, Or.inl ⟨r, hr, rfl⟩,
      mem_rowPositions.mpr ⟨h1, hnc⟩, mem_rowPositions.mpr ⟨rfl, hc⟩⟩
  · exact ⟨colPositions c, Or.inr (Or.inl ⟨c, hc, rfl⟩),
      mem_colPositions.mpr ⟨h1, hnr⟩, mem_colPositions.mpr ⟨rfl, hr⟩⟩
  · refine ⟨quadPositions (r / 3 * 3) (c / 3 * 3),
      Or.inr (Or.inr ⟨r / 3, c / 3, by omega, by omega, rfl⟩), ?_, ?_⟩
    · simp only [quad_of, Prod.mk.injEq] at h1
      rw [mem_quadPositions]
      simp only
      omega
    · rw [mem_quadPositions]
      simp only
      omega

theorem digitAt_mod_eq {sol : Sudoku} {a b a2 b2 : Nat}
    (h1 : a % 9 = a2 % 9) (h2 : b % 9 = b2 % 9) :
    digitAt sol a2 b2 = digitAt sol a b := by
  simp only [digitAt]
  rw [cellAt_mod sol a2 b2, cellAt_mod sol a b, h1, h2]

set_option maxHeartbeats 1600000 in
theorem extends_remove {sol g : Sudoku} (hsolved : is_solved sol = true)
    {r c : Nat} (hr : r < 9) (hc : c < 9)
    (hd : digitAt sol r c = (cellAt g r c).first_digit)
    (st2 : Sudoku × Bool) (nr nc : Nat) (hnr : nr < 9) (hnc : nc < 9)
    (hgrp : nr = r ∨ nc = c ∨ quad_of nr nc = quad_of r c)
    (hP2 : ∀ r2 c2 : Nat, (cellAt st2.1 r2 c2).has_digit (digitAt sol r2 c2) = true) :
    ∃ st', remove_d_at g r c (cellAt g r c).first_digit st2 nr nc = some st' ∧
      ∀ r2 c2 : Nat, (cellAt st'.1 r2 c2).has_digit (digitAt sol r2 c2) = true := by
  rw [remove_d_at]
  by_cases hsame : nr = r ∧ nc = c
  · rw [if_pos hsame]
    exact ⟨st2, rfl, hP2⟩
  · rw [if_neg hsame]
    simp only
    have hne : ((nr, nc) : Nat × Nat) ≠ (r, c) := by
      intro hcon
      simp only [Prod.mk.injEq] at hcon
      exact hsame hcon
    have hdistinct : digitAt sol nr nc ≠ (cellAt g r c).first_digit := by
      obtain ⟨G, hG, hm1, hm2⟩ := group_of_removal hr hc hnr hnc hgrp
      have hdd := solved_group_distinct hsolved hG hm1 hm2 hne
      simp only at hdd
      rw [← hd]
      exact hdd
    have hhas : ((cellAt st2.1 nr nc).remove_digit
        (cellAt g r c).first_digit).has_digit (digitAt sol nr nc) = true := by
      rw [has_digit_iff, maskBits_remove, Finset.mem_sdiff, Finset.mem_singleton]
      exact ⟨has_digit_iff.mp (hP2 nr nc), hdistinct⟩
    have hnemp : ((cellAt st2.1 nr nc).remove_digit
        (cellAt g r c).first_digit).is_empty = false := by
      cases he2 : ((cellAt st2.1 nr nc).remove_digit
          (cellAt g r c).first_digit).is_empty with
      | false => rfl
      | true =>
        exfalso
        have h0 := is_empty_iff.mp he2
        have hm := has_digit_iff.mp hhas
        rw [mem_maskBits, h0] at hm
        simp at hm
    rw [hnemp]
    simp only [Bool.false_eq_true, if_false]
    refine ⟨_, rfl, ?_⟩
    intro r2 c2
    rw [cellAt_setAt]
    by_cases hloc : nr % 9 = r2 % 9 ∧ nc % 9 = c2 % 9
    · rw [if_pos hloc]
      rw [digitAt_mod_eq hloc.1 hloc.2]
      exact hhas
    · rw [if_neg hloc]
      exact hP2 r2 c2

theorem wc_extends {sol g : Sudoku} (hsolved : is_solved sol = true)
    (he : ∀ r c : Nat, (cellAt g r c).has_digit (digitAt sol r c) = true) :
    ∃ st, without_conflicts g = some st ∧
      ∀ r c : Nat, (cellAt st.1 r c).has_digit (digitAt sol r c) = true := by
  rw [without_conflicts]
  apply @foldlM_option_total (Nat × Nat) (Sudoku × Bool)
    (fun st => ∀ r c : Nat, (cellAt st.1 r c).has_digit (digitAt sol r c) = true)
    _ _ _ he
  intro st rc hmem hP
  obtain ⟨r, c⟩ := rc
  have hb := mem_positions.mp hmem
  simp only at hb
  simp only [conflictStep]
  have hlen1 : 1 ≤ (cellAt g r c).len := len_pos_of_has_digit (he r c)
  rw [if_neg (by omega)]
  by_cases hl1 : (cellAt g r c).len = 1
  · rw [if_pos hl1]
    have hd : digitAt sol r c = (cellAt g r c).first_digit :=
      (singleton_props hl1).2 _ (he r c)
    apply @foldlM_option_total Nat (Sudoku × Bool)
      (fun st => ∀ r2 c2 : Nat, (cellAt st.1 r2 c2).has_digit (digitAt sol r2 c2) = true)
      _ _ _ hP
    intro st2 i hi hP2
    rw [List.mem_range] at hi
    obtain ⟨stA, hA, hPA⟩ :=
      extends_remove hsolved hb.1 hb.2 hd st2 r i hb.1 hi (Or.inl rfl) hP2
    obtain ⟨stB, hB, hPB⟩ :=
      extends_remove hsolved hb.1 hb.2 hd stA i c hi hb.2 (Or.inr (Or.inl rfl)) hPA
    have hquadgrp : (r / 3 * 3 + i / 3) = r ∨ (c / 3 * 3 + i % 3) = c ∨
        quad_of (r / 3 * 3 + i / 3) (c / 3 * 3 + i % 3) = quad_of r c := by
      right
      right
      simp only [quad_of, Prod.mk.injEq]
      omega
    obtain ⟨stC, hC, hPC⟩ :=
      extends_remove hsolved hb.1 hb.2 hd stB (r / 3 * 3 + i / 3) (c / 3 * 3 + i % 3)
        (by omega) (by omega) hquadgrp hPB
    exact ⟨stC, option_bind3 hA hB hC, hPC⟩
  · rw [if_neg hl1]
    exact ⟨st, rfl, hP⟩

theorem fu_one_extends {sol s : Sudoku} {d : Nat} {G : List (Nat × Nat)}
    (hsolved : is_solved sol = true) (hd1 : 1 ≤ d) (hd9 : d ≤ 9) (hG : isGroup G)
    (he : ∀ r c : Nat, (cellAt s r c).has_digit (digitAt sol r c) = true) :
    ∀ r c : Nat,
      (cellAt (find_unambiguity s d G).1 r c).has_digit (digitAt sol r c) = true := by
  rcases find_unambiguity_cases hd1 hd9 (s := s) (G := G) with heq |
    ⟨rc, cl, hscan, hfd, hmask, heq⟩
  · rw [heq]
    exact he
  · rw [heq]
    obtain ⟨hmem, hhd, hlnot1, huniq⟩ := scan_digit_none_some hscan
    obtain ⟨p, hpG, hpd⟩ := solved_group_covers hsolved hG hd1 hd9
    have hpcarrier : (cellAt s p.1 p.2).has_digit d = true := by
      rw [← hpd]
      exact he p.1 p.2
    have hprc : p = rc := huniq p hpG hpcarrier
    have hdrc : digitAt sol rc.1 rc.2 = d := by
      rw [← hprc]
      exact hpd
    intro r2 c2
    simp only
    rw [cellAt_setAt]
    by_cases hloc : rc.1 % 9 = r2 % 9 ∧ rc.2 % 9 = c2 % 9
    · rw [if_pos hloc]
      rw [digitAt_mod_eq hloc.1 hloc.2, hdrc, has_digit_iff, hmask]
      exact Finset.mem_singleton_self d
    · rw [if_neg hloc]
      exact he r2 c2

theorem fu_extends {sol s : Sudoku} (hsolved : is_solved sol = true)
    (he : ∀ r c : Nat, (cellAt s r c).has_digit (digitAt sol r c) = true) :
    ∀ r c : Nat,
      (cellAt (find_unambiguities s).1 r c).has_digit (digitAt sol r c) = true := by
  rw [find_unambiguities]
  apply @foldl_inv Nat (Sudoku × Bool)
    (fun st => ∀ r c : Nat, (cellAt st.1 r c).has_digit (digitAt sol r c) = true)
    _ _ _ he
  intro b i hi hP
  rw [List.mem_range] at hi
  apply @foldl_inv Nat (Sudoku × Bool)
    (fun st => ∀ r c : Nat, (cellAt st.1 r c).has_digit (digitAt sol r c) = true)
    _ _ _ hP
  intro b2 d hd hP2
  have hd19 := List.mem_range'_1.mp hd
  have hG1 : isGroup (rowPositions i) := Or.inl ⟨i, hi, rfl⟩
  have hG2 : isGroup (colPositions i) := Or.inr (Or.inl ⟨i, hi, rfl⟩)
  have hG3 : isGroup (quadPositions (i / 3 * 3) (i % 3 * 3)) :=
    Or.inr (Or.inr ⟨i / 3, i % 3, by omega, by omega, rfl⟩)
  exact fu_one_extends hsolved hd19.1 (by omega) hG3
    (fu_one_extends hsolved hd19.1 (by omega) hG2
      (fu_one_extends hsolved hd19.1 (by omega) hG1 hP2))

theorem simplified_extends {sol g : Sudoku} (hsolved : is_solved sol = true)
    (he : ∀ r c : Nat, (cellAt g r c).has_digit (digitAt sol r c) = true) :
    ∃ s ch, simplified g = some (s, ch) ∧
      ∀ r c : Nat, (cellAt s r c).has_digit (digitAt sol r c) = true := by
  obtain ⟨st, hwc, hP⟩ := wc_extends hsolved he
  obtain ⟨n, cw⟩ := st
  rw [simplified, hwc]
  exact ⟨(find_unambiguities n).1, (find_unambiguities n).2 || cw, rfl,
    fu_extends hsolved hP⟩

theorem simplify_loop_extends {sol : Sudoku} (hsolved : is_solved sol = true) :
    ∀ (fuel : Nat) (g : Sudoku), totalLen g < fuel →
      (∀ r c : Nat, (cellAt g r c).has_digit (digitAt sol r c) = true) →
      ∃ s, simplify_loop fuel g = some (some s) ∧
        ∀ r c : Nat, (cellAt s r c).has_digit (digitAt sol r c) = true := by
  intro fuel
  induction fuel with
  | zero => intro g h _; omega
  | succ fuel ih =>
    intro g hm he
    obtain ⟨s1, ch, hsimp, hP⟩ := simplified_extends hsolved he
    rw [simplify_loop, hsimp]
    cases ch with
    | true =>
      have hlt := simplified_true_lt hsimp
      obtain ⟨s, heq, hP2⟩ := ih s1 (by omega) hP
      exact ⟨s, heq, hP2⟩
    | false =>
      exact ⟨s1, rfl, hP⟩

theorem fixpoint_extends {sol g : Sudoku} (hsolved : is_solved sol = true)
    (he : ∀ r c : Nat, (cellAt g r c).has_digit (digitAt sol r c) = true) :
    ∃ s, fixpoint g = some s ∧
      ∀ r c : Nat, (cellAt s r c).has_digit (digitAt sol r c) = true := by
  obtain ⟨s, hloop, hP⟩ :=
    simplify_loop_extends hsolved (totalLen g + 1) g (by omega) he
  rw [fixpoint, hloop]
  exact ⟨s, rfl, hP⟩

theorem branch_extends {sol s : Sudoku} {r c : Nat} {cell : Cell}
    (_hsolved : is_solved sol = true) (hwf : s.wf)
    (hbc : branchCell s = some (r, c, cell))
    (he : ∀ r2 c2 : Nat, (cellAt s r2 c2).has_digit (digitAt sol r2 c2) = true) :
    (∀ r2 c2 : Nat,
        (cellAt (fixedChild s r c cell) r2 c2).has_digit (digitAt sol r2 c2) = true) ∨
      (∀ r2 c2 : Nat,
        (cellAt (excludedChild s r c cell) r2 c2).has_digit (digitAt sol r2 c2) = true) := by
  obtain ⟨hcell, hr9, hc9, hlen, _⟩ := branchCell_spec hbc
  simp only at hcell hr9 hc9 hlen
  have hnz : cell.digits ≠ 0 := by
    intro h0
    rw [← len_zero_iff] at h0
    omega
  have hfd := (first_digit_spec hnz).1
  have hfd19 : 1 ≤ cell.first_digit ∧ cell.first_digit ≤ 9 := by
    apply wf_iff.mp _ _ hfd
    rw [hcell]
    exact hwf _ _
  obtain ⟨cl, hcl, hmask⟩ := from_digit_eq_some hfd19.1 hfd19.2
  have hval : (Cell.from_digit cell.first_digit).getD cell = cl := by
    rw [hcl]
    rfl
  by_cases hdsol : digitAt sol r c = cell.first_digit
  · left
    intro r2 c2
    simp only [fixedChild]
    rw [hval, cellAt_setAt]
    by_cases hloc : r % 9 = r2 % 9 ∧ c % 9 = c2 % 9
    · rw [if_pos hloc, digitAt_mod_eq hloc.1 hloc.2, hdsol, has_digit_iff, hmask]
      exact Finset.mem_singleton_self _
    · rw [if_neg hloc]
      exact he r2 c2
  · right
    intro r2 c2
    simp only [excludedChild]
    rw [cellAt_setAt]
    by_cases hloc : r % 9 = r2 % 9 ∧ c % 9 = c2 % 9
    · rw [if_pos hloc, digitAt_mod_eq hloc.1 hloc.2, has_digit_iff, maskBits_remove,
        Finset.mem_sdiff, Finset.mem_singleton]
      refine ⟨?_, hdsol⟩
      rw [hcell]
      exact has_digit_iff.mp (he r c)
    · rw [if_neg hloc]
      exact he r2 c2

theorem nextFuel_complete :
    ∀ (fuel : Nat) (stack : List Sudoku), stackMeasure stack < fuel →
      (∀ m ∈ stack, m.wf) → (∃ m ∈ stack, ∃ sol, SolExtends sol m) →
      ∃ s rest, nextFuel fuel stack = some (some (s, rest)) := by
  intro fuel
  induction fuel with
  | zero => intro stack h _ _; omega
  | succ fuel ih =>
    intro stack hm hwf hex
    cases stack with
    | nil =>
      obtain ⟨m, hm0, _⟩ := hex
      cases hm0
    | cons g tail =>
      have hgwf : g.wf := hwf g (by simp)
      have htailwf : ∀ m ∈ tail, m.wf := fun m hm2 => hwf m (by simp [hm2])
      have hpos : 1 ≤ (3 : Nat) ^ totalLen g := Nat.one_le_pow _ _ (by omega)
      rw [stackMeasure_cons] at hm
      cases hfx : fixpoint g with
      | none =>
        rw [nextFuel_cons_prune hfx]
        apply ih tail (by omega) htailwf
        obtain ⟨m, hmem, sol, hext⟩ := hex
        rcases List.mem_cons.mp hmem with rfl | htl
        · exfalso
          obtain ⟨s2, hfix2, _⟩ := fixpoint_extends hext.1 hext.2
          rw [hfx] at hfix2
          cases hfix2
        · exact ⟨m, htl, sol, hext⟩
      | some s =>
        cases hsol : is_solved s with
        | true => exact ⟨s, tail, nextFuel_cons_yield hfx hsol⟩
        | false =>
          have hswf : s.wf := wf_of_sub (fixpoint_spec hfx).1 hgwf
          have hbranch :=
            branchCell_isSome (fixed_not_solved_branch hswf (fixpoint_spec hfx).2 hsol)
          obtain ⟨m0, hbc⟩ := Option.isSome_iff_exists.mp hbranch
          obtain ⟨r, c, cell⟩ := m0
          rw [nextFuel_cons_branch hfx hsol hbc]
          obtain ⟨hlt, hfwf, hewf, _⟩ := children_stack_lt tail hgwf hfx hbc
          apply ih _ ?_ ?_ ?_
          · have hgr := stackMeasure_cons g tail
            omega
          · intro m hm2
            rcases List.mem_cons.mp hm2 with rfl | hm3
            · exact hfwf
            · rcases List.mem_cons.mp hm3 with rfl | hm4
              · exact hewf
              · exact htailwf m hm4
          · obtain ⟨m, hmem, sol, hext⟩ := hex
            rcases List.mem_cons.mp hmem with rfl | htl
            · obtain ⟨s2, hfx2, hP2⟩ := fixpoint_extends hext.1 hext.2
              rw [hfx] at hfx2
              replace hfx2 := Option.some.inj hfx2
              subst hfx2
              rcases branch_extends hext.1 hswf hbc hP2 with hfix | hexc
              · exact ⟨fixedChild s r c cell, by simp, sol, hext.1, hfix⟩
              · exact ⟨excludedChild s r c cell, by simp, sol, hext.1, hexc⟩
            · exact ⟨m, by simp [htl], sol, hext⟩

theorem first_solution_complete {g : Sudoku} (hwf : g.wf)
    {sol : Sudoku} (hext : SolExtends sol g) :
    ∃ s, first_solution g = some s ∧ is_solved s = true := by
  obtain ⟨s, rest, hnext⟩ := nextFuel_complete (stackMeasure [g] + 1) [g] (by omega)
    (by
      intro m hm
      rw [List.mem_singleton] at hm
      rw [hm]
      exact hwf)
    ⟨g, by simp, sol, hext⟩
  have hsubs : ∀ m ∈ [g], GridSub m g := by
    intro m hm
    rw [List.mem_singleton] at hm
    rw [hm]
    exact GridSub.refl g
  refine ⟨s, ?_, (@nextFuel_sound g _ _ _ _ hnext hsubs).1⟩
  rw [first_solution, next_solution, hnext]
  rfl

theorem fromLineStep_good {ch : Char} (h : goodChar ch) (s : Sudoku) (i : Nat) :
    fromLineStep s (i, ch) = some (setAt s (i / 9) (i % 9) (specCellOf ch)) := by
  rcases h with hdot | ⟨h1, h2⟩
  · subst hdot
    show (if ('.' : Char) = '.' then some (setAt s (i / 9) (i % 9) Cell.all_digits)
      else do
        let d ← charToDigit10 '.'
        let cl ← Cell.from_digit d
        some (setAt s (i / 9) (i % 9) cl)) =
      some (setAt s (i / 9) (i % 9) (specCellOf '.'))
    rw [if_pos rfl, specCellOf, if_pos rfl]
  · have hne : ch ≠ '.' := by
      intro h0
      rw [h0] at h1
      exact absurd h1 (by decide)
    obtain ⟨cl, hcl, hmask⟩ := @from_digit_eq_some (ch.toNat - 48) (by omega) (by omega)
    have hd : charToDigit10 ch = some (ch.toNat - 48) := by
      rw [charToDigit10, if_pos]
      exact ⟨by omega, by omega⟩
    show (if ch = '.' then some (setAt s (i / 9) (i % 9) Cell.all_digits)
      else do
        let d ← charToDigit10 ch
        let cl2 ← Cell.from_digit d
        some (setAt s (i / 9) (i % 9) cl2)) =
      some (setAt s (i / 9) (i % 9) (specCellOf ch))
    rw [if_neg hne, hd]
    show (do
      let cl2 ← Cell.from_digit (ch.toNat - 48)
      some (setAt s (i / 9) (i % 9) cl2)) =
      some (setAt s (i / 9) (i % 9) (specCellOf ch))
    rw [hcl]
    show some (setAt s (i / 9) (i % 9) cl) = some (setAt s (i / 9) (i % 9) (specCellOf ch))
    rw [specCellOf, if_neg hne, hcl]
    rfl

theorem fromLineStep_bad {ch : Char} (h : ¬ goodChar ch) (s : Sudoku) (i : Nat) :
    fromLineStep s (i, ch) = none := by
  rw [goodChar] at h
  push_neg at h
  obtain ⟨hne, hrange⟩ := h
  show (if ch = '.' then some (setAt s (i / 9) (i % 9) Cell.all_digits)
    else do
      let d ← charToDigit10 ch
      let cl ← Cell.from_digit d
      some (setAt s (i / 9) (i % 9) cl)) = none
  rw [if_neg hne]
  by_cases h48 : 48 ≤ ch.toNat ∧ ch.toNat ≤ 57
  · have h0 : ch.toNat - 48 = 0 ∨ ch.toNat - 48 > 9 := by
      rcases Nat.lt_or_ge ch.toNat 49 with hlt | hge
      · left
        omega
      · exact absurd (hrange hge) (by omega)
    have hd : charToDigit10 ch = some (ch.toNat - 48) := by
      rw [charToDigit10, if_pos]
      exact ⟨h48.1, h48.2⟩
    rw [hd]
    show (do
      let cl ← Cell.from_digit (ch.toNat - 48)
      some (setAt s (i / 9) (i % 9) cl)) = none
    rw [from_digit_none_iff.mpr h0]
    rfl
  · have hd : charToDigit10 ch = none := by
      rw [charToDigit10, if_neg]
      intro hcon
      exact h48 ⟨hcon.1, hcon.2⟩
    rw [hd]
    rfl

theorem fromLine_fold_ok :
    ∀ (cs : List Char) (k : Nat) (s : Sudoku), k + cs.length ≤ 81 →
      (∀ ch ∈ cs, goodChar ch) →
      ∃ g, (List.enumFrom k cs).foldlM fromLineStep s = some g ∧
        (∀ j, j < cs.length →
          cellAt g ((k + j) / 9) ((k + j) % 9) = specCellOf (cs.getD j '.')) ∧
        (∀ r c : Nat, r < 9 → c < 9 → (9 * r + c < k ∨ k + cs.length ≤ 9 * r + c) →
          cellAt g r c = cellAt s r c) := by
  intro cs
  induction cs with
  | nil =>
    intro k s _ _
    exact ⟨s, rfl, fun j hj => absurd hj (by simp), fun r c _ _ _ => rfl⟩
  | cons ch cs ih =>
    intro k s hle hgood
    have hch : goodChar ch := hgood ch (by simp)
    have hk81 : k < 81 := by
      simp only [List.length_cons] at hle
      omega
    obtain ⟨g, hfold, hwr, hkeep⟩ :=
      ih (k + 1) (setAt s (k / 9) (k % 9) (specCellOf ch))
        (by simp only [List.length_cons] at hle; omega)
        (fun c2 hc2 => hgood c2 (by simp [hc2]))
    refine ⟨g, ?_, ?_, ?_⟩
    · show (fromLineStep s (k, ch) >>= fun s2 =>
        (List.enumFrom (k + 1) cs).foldlM fromLineStep s2) = some g
      rw [fromLineStep_good hch s k]
      exact hfold
    · intro j hj
      cases j with
      | zero =>
        simp only [Nat.add_zero]
        rw [hkeep (k / 9) (k % 9) (by omega) (by omega) (Or.inl (by omega))]
        show cellAt (setAt s (k / 9) (k % 9) (specCellOf ch)) (k / 9) (k % 9) = specCellOf ch
        exact cellAt_setAt_self s (k / 9) (k % 9) (specCellOf ch)
      | succ j =>
        have hj2 : j < cs.length := by
          simp only [List.length_cons] at hj
          omega
        rw [show k + (j + 1) = (k + 1) + j from by omega]
        exact hwr j hj2
    · intro r c hr hc hcond
      simp only [List.length_cons] at hcond
      have hcond2 : 9 * r + c < k + 1 ∨ (k + 1) + cs.length ≤ 9 * r + c := by
        rcases hcond with h | h
        · left
          omega
        · right
          omega
      have hne2 : ¬(k / 9 % 9 = r % 9 ∧ k % 9 % 9 = c % 9) := by
        intro hcon
        obtain ⟨h1, h2⟩ := hcon
        omega
      rw [hkeep r c hr hc hcond2, cellAt_setAt, if_neg hne2]

theorem fromLine_fold_bad :
    ∀ (cs : List Char) (k : Nat) (s : Sudoku), (∃ ch ∈ cs, ¬ goodChar ch) →
      (List.enumFrom k cs).foldlM fromLineStep s = none := by
  intro cs
  induction cs with
  | nil =>
    intro k s h
    obtain ⟨ch, h0, _⟩ := h
    cases h0
  | cons ch cs ih =>
    intro k s h
    show (fromLineStep s (k, ch) >>= fun s2 =>
      (List.enumFrom (k + 1) cs).foldlM fromLineStep s2) = none
    by_cases hch : goodChar ch
    · have hbad : ∃ c2 ∈ cs, ¬ goodChar c2 := by
        obtain ⟨c2, hc2, hb⟩ := h
        rcases List.mem_cons.mp hc2 with rfl | hm
        · exact absurd hch hb
        · exact ⟨c2, hm, hb⟩
      rw [fromLineStep_good hch s k]
      exact ih (k + 1) _ hbad
    · rw [fromLineStep_bad hch s k]
      rfl

theorem from_line_ok {line : List Char} (h : lineOk line) :
    ∃ g, from_line line = some g ∧
      ∀ j, j < 81 → cellAt g (j / 9) (j % 9) = specCellOf (line.getD j '.') := by
  obtain ⟨g, hfold, hwr, _⟩ := fromLine_fold_ok line 0 zeroGrid (by rw [h.1]) h.2
  refine ⟨g, ?_, ?_⟩
  · rw [from_line, if_neg (fun hc => hc h.1)]
    exact hfold
  · intro j hj
    have hj2 : j < line.length := by
      rw [h.1]
      exact hj
    have := hwr j hj2
    simpa using this

theorem from_line_none {line : List Char} (h : ¬ lineOk line) :
    from_line line = none := by
  rw [lineOk] at h
  push_neg at h
  by_cases hlen : line.length = 81
  · obtain ⟨ch, hm, hb⟩ := h hlen
    rw [from_line, if_neg (fun hc => hc hlen)]
    exact fromLine_fold_bad line 0 zeroGrid ⟨ch, hm, hb⟩
  · rw [from_line, if_pos hlen]

theorem from_line_lineOk {line : List Char} {g : Sudoku}
    (h : from_line line = some g) : lineOk line := by
  by_contra hno
  rw [from_line_none hno] at h
  cases h

set_option maxRecDepth 4000 in
theorem positions_getElem : ∀ j, j < 81 → positions[j]? = some (j / 9, j % 9) := by
  decide

theorem to_line_getD {g : Sudoku} {j : Nat} (hj : j < 81) :
    (to_line g).getD j '.' =
      (if (cellAt g (j / 9) (j % 9)).len == 1
       then (Nat.repr (cellAt g (j / 9) (j % 9)).first_digit).toList.headD '.'
       else '.') := by
  rw [to_line, List.getD_eq_getElem?_getD, List.getElem?_map, positions_getElem j hj]
  rfl

theorem to_line_length (g : Sudoku) : (to_line g).length = 81 := by
  rw [to_line, List.length_map]
  exact positions_length

theorem repr_digit_char {d : Nat} (h1 : 1 ≤ d) (h9 : d ≤ 9) :
    ((Nat.repr d).toList.headD '.').toNat = 48 + d ∧
      (Nat.repr d).toList.headD '.' ≠ '.' := by
  interval_cases d <;> exact (by decide)

theorem to_line_mem_good {g : Sudoku} (hs : is_solved g = true) :
    ∀ ch ∈ to_line g, goodChar ch := by
  intro ch hch
  rw [to_line, List.mem_map] at hch
  obtain ⟨rc, hrc, hdef⟩ := hch
  have hlen1 : (cellAt g rc.1 rc.2).len = 1 := solved_len1 hs rc.1 rc.2
  have hd : 1 ≤ (cellAt g rc.1 rc.2).first_digit ∧
      (cellAt g rc.1 rc.2).first_digit ≤ 9 := solved_digit_range hs rc.1 rc.2
  obtain ⟨htn, hne⟩ := repr_digit_char hd.1 hd.2
  have hif : (if (cellAt g rc.1 rc.2).len == 1
      then (Nat.repr (cellAt g rc.1 rc.2).first_digit).toList.headD '.'
      else '.') = ch := hdef
  rw [hlen1, if_pos (show ((1 : Nat) == 1) = true by decide)] at hif
  right
  rw [← hif]
  constructor <;> omega

theorem to_line_from_line {g : Sudoku} (hs : is_solved g = true) :
    from_line (to_line g) = some g := by
  have hok : lineOk (to_line g) := ⟨to_line_length g, to_line_mem_good hs⟩
  obtain ⟨g2, hsome, hcells⟩ := from_line_ok hok
  have heq : g2 = g := by
    apply Sudoku.ext_cells
    intro rf cf
    have hj : 9 * (rf : Nat) + (cf : Nat) < 81 := by omega
    have h := hcells (9 * (rf : Nat) + (cf : Nat)) hj
    have hr : (9 * (rf : Nat) + (cf : Nat)) / 9 = (rf : Nat) := by omega
    have hc : (9 * (rf : Nat) + (cf : Nat)) % 9 = (cf : Nat) := by omega
    rw [to_line_getD hj] at h
    rw [hr, hc] at h
    have hlen1 : (cellAt g (rf : Nat) (cf : Nat)).len = 1 := solved_len1 hs rf cf
    have hd : 1 ≤ (cellAt g (rf : Nat) (cf : Nat)).first_digit ∧
        (cellAt g (rf : Nat) (cf : Nat)).first_digit ≤ 9 := solved_digit_range hs rf cf
    obtain ⟨htn, hne⟩ := repr_digit_char hd.1 hd.2
    obtain ⟨cl, hcl, hmask⟩ :=
      @from_digit_eq_some (cellAt g (rf : Nat) (cf : Nat)).first_digit hd.1 hd.2
    rw [hlen1, if_pos (show ((1 : Nat) == 1) = true by decide)] at h
    rw [specCellOf, if_neg hne, htn] at h
    rw [show 48 + (cellAt g (rf : Nat) (cf : Nat)).first_digit - 48 =
      (cellAt g (rf : Nat) (cf : Nat)).first_digit from by omega] at h
    rw [hcl, Option.getD_some] at h
    rw [← cellAt_of_fin g2 rf cf, ← cellAt_of_fin g rf cf, h]
    apply Cell.ext_mask
    rw [hmask, singleton_maskBits hlen1]
  rw [hsome, heq]

theorem swapRemove_len (l : List Nat) (j : Nat) :
    (swapRemove l j).2.length = l.length - 1 := by
  simp [swapRemove]

theorem swapRemove_fst {l : List Nat} {j : Nat} (hj : j < l.length) :
    (swapRemove l j).1 = l[j] := by
  show l.getD j 0 = l[j]
  rw [List.getD_eq_getElem?_getD, List.getElem?_eq_getElem hj]
  rfl

theorem swapRemove_getElem {l : List Nat} {j : Nat} (_hj : j < l.length) (i : Nat)
    (hi : i < (swapRemove l j).2.length) (_hi1 : i < l.length - 1) (hi2 : i < l.length)
    (hl1 : l.length - 1 < l.length) :
    (swapRemove l j).2[i] = if i = j then l[l.length - 1] else l[i] := by
  have hlast : l.getLast?.getD 0 = l[l.length - 1] := by
    rw [List.getLast?_eq_getElem?, List.getElem?_eq_getElem hl1]
    rfl
  show ((l.set j (l.getLast?.getD 0)).dropLast)[i] = _
  rw [List.getElem_dropLast, List.getElem_set]
  by_cases h : i = j
  · rw [if_pos h.symm, if_pos h]
    exact hlast
  · rw [if_neg (fun h2 => h h2.symm), if_neg h]

theorem swapRemove_fst_mem {l : List Nat} {j : Nat} (hj : j < l.length) :
    (swapRemove l j).1 ∈ l := by
  rw [swapRemove_fst hj]
  exact List.getElem_mem hj

theorem swapRemove_subset {l : List Nat} {j : Nat} (hj : j < l.length) :
    ∀ x ∈ (swapRemove l j).2, x ∈ l := by
  intro x hx
  rw [List.mem_iff_getElem] at hx
  obtain ⟨i, hi, hval⟩ := hx
  have hi1 : i < l.length - 1 := by
    rw [swapRemove_len] at hi
    exact hi
  have hl1 : l.length - 1 < l.length := by omega
  have hi2 : i < l.length := by omega
  rw [swapRemove_getElem hj i hi hi1 hi2 hl1] at hval
  by_cases h : i = j
  · rw [if_pos h] at hval
    rw [← hval]
    exact List.getElem_mem hl1
  · rw [if_neg h] at hval
    rw [← hval]
    exact List.getElem_mem hi2

theorem swapRemove_nodup {l : List Nat} {j : Nat} (hj : j < l.length)
    (hnd : l.Nodup) : (swapRemove l j).2.Nodup := by
  rw [List.nodup_iff_injective_getElem]
  intro a b hab
  have hA := a.isLt
  have hB := b.isLt
  have hlen := swapRemove_len l j
  have ha1 : (a : Nat) < l.length - 1 := by omega
  have hb1 : (b : Nat) < l.length - 1 := by omega
  have hl1 : l.length - 1 < l.length := by omega
  have ha2 : (a : Nat) < l.length := by omega
  have hb2 : (b : Nat) < l.length := by omega
  have hab2 : (swapRemove l j).2[(a : Nat)] = (swapRemove l j).2[(b : Nat)] := hab
  rw [swapRemove_getElem hj a a.isLt ha1 ha2 hl1,
    swapRemove_getElem hj b b.isLt hb1 hb2 hl1] at hab2
  apply Fin.ext
  by_cases haj : (a : Nat) = j <;> by_cases hbj : (b : Nat) = j
  · rw [haj, hbj]
  · rw [if_pos haj, if_neg hbj] at hab2
    have := (List.Nodup.getElem_inj_iff hnd).mp hab2
    omega
  · rw [if_neg haj, if_pos hbj] at hab2
    have := (List.Nodup.getElem_inj_iff hnd).mp hab2
    omega
  · rw [if_neg haj, if_neg hbj] at hab2
    exact (List.Nodup.getElem_inj_iff hnd).mp hab2

theorem swapRemove_fst_not_mem {l : List Nat} {j : Nat} (hj : j < l.length)
    (hnd : l.Nodup) : (swapRemove l j).1 ∉ (swapRemove l j).2 := by
  rw [swapRemove_fst hj]
  intro hmem
  rw [List.mem_iff_getElem] at hmem
  obtain ⟨i, hi, hval⟩ := hmem
  have hi1 : i < l.length - 1 := by
    rwa [swapRemove_len] at hi
  have hl1 : l.length - 1 < l.length := by omega
  have hi2 : i < l.length := by omega
  rw [swapRemove_getElem hj i hi hi1 hi2 hl1] at hval
  by_cases h : i = j
  · rw [if_pos h] at hval
    have := (List.Nodup.getElem_inj_iff hnd).mp hval
    omega
  · rw [if_neg h] at hval
    have := (List.Nodup.getElem_inj_iff hnd).mp hval
    omega

theorem clearCells_spec :
    ∀ (n k : Nat) (choose : List Nat) (s : Sudoku) (picks : Nat → Nat),
      choose.Nodup → (∀ p ∈ choose, p < 81) →
      (∀ i, k ≤ i → i < k + n → picks i < choose.length - (i - k)) →
      n ≤ choose.length →
      ∃ sel : List Nat, sel.Nodup ∧ sel.length = n ∧
        (∀ p ∈ sel, p < 81 ∧ p ∈ choose) ∧
        (∀ r c : Nat, r < 9 → c < 9 →
          (9 * r + c ∈ sel →
            cellAt (clearCells picks k n choose s) r c = Cell.all_digits) ∧
          (9 * r + c ∉ sel →
            cellAt (clearCells picks k n choose s) r c = cellAt s r c)) := by
  intro n
  induction n with
  | zero =>
    intro k choose s picks hnd hp hpk hn
    exact ⟨[], List.nodup_nil, rfl, fun p hp2 => absurd hp2 (List.not_mem_nil p),
      fun r c hr hc => ⟨fun hmem => absurd hmem (List.not_mem_nil _), fun _ => rfl⟩⟩
  | succ n ih =>
    intro k choose s picks hnd hp hpk hn
    have hjlt : picks k < choose.length := by
      have := hpk k (le_refl k) (by omega)
      simpa using this
    have hfst : (swapRemove choose (picks k)).1 ∈ choose := swapRemove_fst_mem hjlt
    have hp81 : (swapRemove choose (picks k)).1 < 81 := hp _ hfst
    have hrnd : (swapRemove choose (picks k)).2.Nodup := swapRemove_nodup hjlt hnd
    have hrsub := swapRemove_subset hjlt
    have hrlen : (swapRemove choose (picks k)).2.length = choose.length - 1 :=
      swapRemove_len choose (picks k)
    have hnotmem := swapRemove_fst_not_mem hjlt hnd
    obtain ⟨sel, hselnd, hsellen, hselin, hcells⟩ :=
      ih (k + 1) (swapRemove choose (picks k)).2
        (setAt s ((swapRemove choose (picks k)).1 / 9)
          ((swapRemove choose (picks k)).1 % 9) Cell.all_digits)
        picks hrnd (fun p hp2 => hp p (hrsub p hp2))
        (fun i hi1 hi2 => by
          have := hpk i (by omega) (by omega)
          rw [hrlen]
          omega)
        (by omega)
    refine ⟨(swapRemove choose (picks k)).1 :: sel, ?_, ?_, ?_, ?_⟩
    · rw [List.nodup_cons]
      exact ⟨fun hmem => hnotmem (hselin _ hmem).2, hselnd⟩
    · simp [hsellen]
    · intro p hp2
      rcases List.mem_cons.mp hp2 with rfl | hm
      · exact ⟨hp81, hfst⟩
      · exact ⟨(hselin p hm).1, hrsub p (hselin p hm).2⟩
    · intro r c hr hc
      have hgoal_eq : clearCells picks k (n + 1) choose s =
          clearCells picks (k + 1) n (swapRemove choose (picks k)).2
            (setAt s ((swapRemove choose (picks k)).1 / 9)
              ((swapRemove choose (picks k)).1 % 9) Cell.all_digits) := rfl
      rw [hgoal_eq]
      constructor
      · intro hmem
        rcases List.mem_cons.mp hmem with heq | hm
        · have hnot : 9 * r + c ∉ sel := by
            intro hin
            rw [heq] at hin
            exact hnotmem (hselin _ hin).2
          rw [(hcells r c hr hc).2 hnot, cellAt_setAt, if_pos]
          constructor <;> omega
        · exact (hcells r c hr hc).1 hm
      · intro hnmem
        have hne1 : 9 * r + c ≠ (swapRemove choose (picks k)).1 := by
          intro h
          exact hnmem (by rw [h]; exact List.mem_cons_self _ _)
        have hns : 9 * r + c ∉ sel := fun h => hnmem (List.mem_cons_of_mem _ h)
        rw [(hcells r c hr hc).2 hns, cellAt_setAt, if_neg]
        intro hcon
        obtain ⟨h1, h2⟩ := hcon
        exact hne1 (by omega)

theorem allOpen_wf : allOpen.wf := by
  intro r c
  show Cell.all_digits.wf
  exact ⟨by decide, by decide⟩

theorem solvedGrid_solved : is_solved solvedGrid = true := by decide

theorem solvedGrid_extends_allOpen : SolExtends solvedGrid allOpen := by
  refine ⟨solvedGrid_solved, fun r c => ?_⟩
  rw [has_digit_iff]
  show digitAt solvedGrid r c ∈ maskBits Cell.all_digits.digits
  rw [maskBits_all_digits, Finset.mem_Icc]
  exact solved_digit_range solvedGrid_solved r c

theorem generate_spec {perm : List Nat} {picks : Nat → Nat} {free_cells : Nat}
    (hperm : perm.Perm (List.range 81))
    (hpicks : ∀ i, i < free_cells → picks i < 81 - i)
    (hfree : free_cells ≤ 81) :
    ∃ g, generate_solvable perm picks free_cells = some g ∧
      ((Finset.range 81).filter
        (fun j => (cellAt g (j / 9) (j % 9)).len ≠ 1)).card = free_cells ∧
      (∀ j, j < 81 → (cellAt g (j / 9) (j % 9)).len ≠ 1 →
        cellAt g (j / 9) (j % 9) = Cell.all_digits) ∧
      ∃ s, first_solution g = some s ∧ is_solved s = true := by
  obtain ⟨base, hbase, hbsolved⟩ :=
    first_solution_complete allOpen_wf solvedGrid_extends_allOpen
  have hbaseD : (first_solution allOpen).getD allOpen = base := by
    rw [hbase]
    rfl
  have hbsub : GridSub base allOpen := by
    rw [first_solution] at hbase
    cases hns : next_solution [allOpen] with
    | none =>
      rw [hns] at hbase
      cases hbase
    | some p =>
      rw [hns] at hbase
      have hp1 : p.1 = base := by simpa using hbase
      have hnf := next_solution_some hns
      have hsnd := @nextFuel_sound allOpen _ _ _ _ hnf (by
        intro m hm
        rw [List.mem_singleton] at hm
        rw [hm]
        exact GridSub.refl allOpen)
      rw [← hp1]
      exact hsnd.2.1
  have hbwf : base.wf := wf_of_sub hbsub allOpen_wf
  have hblen1 : ∀ r c : Nat, (cellAt base r c).len = 1 := solved_len1 hbsolved
  have hpnd : perm.Nodup := (List.Perm.nodup_iff hperm).mpr (List.nodup_range 81)
  have hplen : perm.length = 81 := by
    rw [List.Perm.length_eq hperm, List.length_range]
  have hpmem : ∀ p ∈ perm, p < 81 := by
    intro p hp
    have := (List.Perm.mem_iff hperm).mp hp
    rwa [List.mem_range] at this
  obtain ⟨sel, hselnd, hsellen, hselin, hcells⟩ :=
    clearCells_spec free_cells 0 perm base picks hpnd hpmem
      (by
        intro i hi1 hi2
        have := hpicks i (by omega)
        omega)
      (by omega)
  refine ⟨clearCells picks 0 free_cells perm base, ?_, ?_, ?_, ?_⟩
  · rw [generate_solvable, if_neg (by omega)]
    show some (clearCells picks 0 free_cells perm ((first_solution allOpen).getD allOpen)) = _
    rw [hbaseD]
  · have hsetEq : (Finset.range 81).filter
        (fun j =>
          (cellAt (clearCells picks 0 free_cells perm base) (j / 9) (j % 9)).len ≠ 1) =
        sel.toFinset := by
      ext j
      simp only [Finset.mem_filter, Finset.mem_range, List.mem_toFinset]
      constructor
      · rintro ⟨hj81, hlen⟩
        by_contra hns
        have hj9 : 9 * (j / 9) + j % 9 = j := by omega
        have h2 := (hcells (j / 9) (j % 9) (by omega) (by omega)).2
        rw [hj9] at h2
        rw [h2 hns] at hlen
        exact hlen (hblen1 _ _)
      · intro hjs
        have hj81 : j < 81 := (hselin j hjs).1
        refine ⟨hj81, ?_⟩
        have h1 := (hcells (j / 9) (j % 9) (by omega) (by omega)).1
        have hj9 : 9 * (j / 9) + j % 9 = j := by omega
        rw [hj9] at h1
        rw [h1 hjs]
        decide
    rw [hsetEq, List.toFinset_card_of_nodup hselnd, hsellen]
  · intro j hj81 hlen
    have hj9 : 9 * (j / 9) + j % 9 = j := by omega
    have hpair := hcells (j / 9) (j % 9) (by omega) (by omega)
    rw [hj9] at hpair
    by_cases hjs : j ∈ sel
    · exact hpair.1 hjs
    · exact absurd (by rw [hpair.2 hjs]; exact hblen1 _ _) hlen
  · have hgwf : (clearCells picks 0 free_cells perm base).wf := by
      intro rf cf
      rw [← cellAt_of_fin]
      have hpair := hcells (rf : Nat) (cf : Nat) rf.isLt cf.isLt
      by_cases hm : 9 * (rf : Nat) + (cf : Nat) ∈ sel
      · rw [hpair.1 hm]
        show Cell.all_digits.wf
        exact ⟨by decide, by decide⟩
      · rw [hpair.2 hm, cellAt_of_fin]
        exact hbwf rf cf
    have hgext : SolExtends base (clearCells picks 0 free_cells perm base) := by
      refine ⟨hbsolved, fun r c => ?_⟩
      rw [cellAt_mod]
      have hdmod : digitAt base (r % 9) (c % 9) = digitAt base r c :=
        digitAt_mod_eq (by omega) (by omega)
      rw [← hdmod]
      have hpair := hcells (r % 9) (c % 9) (by omega) (by omega)
      by_cases hm : 9 * (r % 9) + c % 9 ∈ sel
      · rw [hpair.1 hm, has_digit_iff, maskBits_all_digits, Finset.mem_Icc]
        exact solved_digit_range hbsolved (r % 9) (c % 9)
      · rw [hpair.2 hm]
        exact (singleton_props (hblen1 (r % 9) (c % 9))).1
    exact first_solution_complete hgwf hgext

theorem specCellOf_wf {ch : Char} (h : goodChar ch) : (specCellOf ch).wf := by
  rcases h with hdot | ⟨h1, h2⟩
  · rw [specCellOf, if_pos hdot]
    exact ⟨by decide, by decide⟩
  · have hne : ch ≠ '.' := by
      intro h0
      rw [h0] at h1
      exact absurd h1 (by decide)
    obtain ⟨cl, hcl, hmask⟩ := @from_digit_eq_some (ch.toNat - 48) (by omega) (by omega)
    rw [specCellOf, if_neg hne, hcl, Option.getD_some]
    rw [wf_iff, hmask]
    intro i hi
    rw [Finset.mem_singleton] at hi
    omega

theorem from_line_wf {line : List Char} {g : Sudoku} (h : from_line line = some g) :
    g.wf := by
  have hok := from_line_lineOk h
  obtain ⟨g2, hsome, hcells⟩ := from_line_ok hok
  have hg2 : g2 = g := Option.some.inj (hsome.symm.trans h)
  subst hg2
  intro rf cf
  have hj : 9 * (rf : Nat) + (cf : Nat) < 81 := by omega
  have hcell := hcells (9 * (rf : Nat) + (cf : Nat)) hj
  have hr : (9 * (rf : Nat) + (cf : Nat)) / 9 = (rf : Nat) := by omega
  have hc : (9 * (rf : Nat) + (cf : Nat)) % 9 = (cf : Nat) := by omega
  rw [hr, hc, cellAt_of_fin] at hcell
  rw [hcell]
  apply specCellOf_wf
  have hj2 : 9 * (rf : Nat) + (cf : Nat) < line.length := by
    rw [hok.1]
    exact hj
  have hmem : line.getD (9 * (rf : Nat) + (cf : Nat)) '.' ∈ line := by
    rw [List.getD_eq_getElem?_getD, List.getElem?_eq_getElem hj2, Option.getD_some]
    exact List.getElem_mem hj2
  exact hok.2 _ hmem

theorem next_solution_solved {g : Sudoku} (hs : is_solved g = true) :
    next_solution [g] = some (g, []) := by
  rw [next_solution, nextFuel_cons_yield (solved_fixpoint hs) hs]

theorem solutions_solved {g : Sudoku} (hs : is_solved g = true) :
    solutions g = [g] := by
  have hpos : 1 ≤ stackMeasure [g] := by
    rw [stackMeasure_cons]
    have : 1 ≤ 3 ^ totalLen g := Nat.one_le_pow _ _ (by omega)
    omega
  obtain ⟨m, hm⟩ : ∃ m, stackMeasure [g] = m + 1 := ⟨stackMeasure [g] - 1, by omega⟩
  have hnil : next_solution ([] : List Sudoku) = none := rfl
  rw [solutions, solutionsFuel, next_solution_solved hs]
  show ((solutionsFuel (stackMeasure [g]) []).map (fun l => g :: l)).getD [] = [g]
  rw [hm, solutionsFuel, hnil]
  rfl

theorem conflictStep_allOpen (st : Sudoku × Bool) (r c : Nat) :
    conflictStep allOpen st (r, c) = some st := by
  have h0 : ¬((cellAt allOpen r c).len = 0) := by
    show ¬(Cell.all_digits.len = 0)
    decide
  have h1 : ¬((cellAt allOpen r c).len = 1) := by
    show ¬(Cell.all_digits.len = 1)
    decide
  simp only [conflictStep]
  rw [if_neg h0, if_neg h1]

theorem without_conflicts_allOpen : without_conflicts allOpen = some (allOpen, false) := by
  obtain ⟨b1, hb, hP⟩ := @foldlM_option_total (Nat × Nat) (Sudoku × Bool)
    (fun st2 => st2 = (allOpen, false)) (conflictStep allOpen) positions
    (allOpen, false) rfl
    (by
      intro st rc hmem hP
      obtain ⟨r, c⟩ := rc
      exact ⟨st, conflictStep_allOpen st r c, hP⟩)
  rw [without_conflicts, hb, hP]

theorem scan_digit_allOpen {d : Nat} (h1 : 1 ≤ d) (h9 : d ≤ 9)
    (p q : Nat × Nat) (rest : List (Nat × Nat)) :
    scan_digit allOpen d (p :: q :: rest) none = none := by
  have hhd : ∀ r c : Nat, (cellAt allOpen r c).has_digit d = true := by
    intro r c
    rw [has_digit_iff]
    show d ∈ maskBits Cell.all_digits.digits
    rw [maskBits_all_digits, Finset.mem_Icc]
    exact ⟨h1, h9⟩
  have hlen : ∀ r c : Nat, ¬((cellAt allOpen r c).len = 1) := by
    intro r c
    show ¬(Cell.all_digits.len = 1)
    decide
  have hstep : ∀ (rc : Nat × Nat) (rest2 : List (Nat × Nat)) (acc : Option (Nat × Nat)),
      scan_digit allOpen d (rc :: rest2) acc =
        match acc with
        | none => scan_digit allOpen d rest2 (some rc)
        | some _ => none := by
    intro rc rest2 acc
    show (if !(cellAt allOpen rc.1 rc.2).has_digit d then scan_digit allOpen d rest2 acc
      else if (cellAt allOpen rc.1 rc.2).len = 1 then none
      else match acc with
        | none => scan_digit allOpen d rest2 (some rc)
        | some _ => none) = _
    rw [if_neg (by rw [hhd rc.1 rc.2]; decide), if_neg (hlen rc.1 rc.2)]
  rw [hstep p (q :: rest) none]
  show scan_digit allOpen d (q :: rest) (some p) = none
  rw [hstep q rest (some p)]

theorem find_unambiguity_allOpen {d : Nat} (h1 : 1 ≤ d) (h9 : d ≤ 9)
    (G : List (Nat × Nat)) (hG : 2 ≤ G.length) :
    find_unambiguity allOpen d G = (allOpen, false) := by
  match G, hG with
  | p :: q :: rest, _ =>
    rw [find_unambiguity, scan_digit_allOpen h1 h9 p q rest]

theorem fu_step_allOpen {d : Nat} (i : Nat) (h1 : 1 ≤ d) (h9 : d ≤ 9) :
    fu_step (allOpen, false) i d = (allOpen, false) := by
  have hrow : find_unambiguity allOpen d (rowPositions i) = (allOpen, false) :=
    find_unambiguity_allOpen h1 h9 _ (by simp [rowPositions])
  have hcol : find_unambiguity allOpen d (colPositions i) = (allOpen, false) :=
    find_unambiguity_allOpen h1 h9 _ (by simp [colPositions])
  have hquad : find_unambiguity allOpen d
      (quadPositions (i / 3 * 3) (i % 3 * 3)) = (allOpen, false) :=
    find_unambiguity_allOpen h1 h9 _ (by simp [quadPositions])
  simp only [fu_step, hrow, hcol, hquad, Bool.or_false, Bool.false_or]

theorem find_unambiguities_allOpen : find_unambiguities allOpen = (allOpen, false) := by
  rw [find_unambiguities]
  apply @foldl_inv Nat (Sudoku × Bool) (fun st2 => st2 = (allOpen, false)) _ _ _ rfl
  intro b i hi hPb
  apply @foldl_inv Nat (Sudoku × Bool) (fun st2 => st2 = (allOpen, false)) _ _ _ hPb
  intro b2 d hd hPb2
  have hd19 := List.mem_range'_1.mp hd
  rw [hPb2]
  exact fu_step_allOpen i hd19.1 (by omega)

theorem allOpen_fixpoint : fixpoint allOpen = some allOpen := by
  apply fixpoint_of_fixed
  rw [simplified, without_conflicts_allOpen]
  show some ((find_unambiguities allOpen).1,
    (find_unambiguities allOpen).2 || false) = some (allOpen, false)
  rw [find_unambiguities_allOpen]
  rfl

theorem from_line_solvedLine : from_line solvedLine = some solvedGrid := by
  have h : (from_line solvedLine).isSome = true := by decide
  obtain ⟨g, hg⟩ := Option.isSome_iff_exists.mp h
  rw [solvedGrid, hg]
  rfl

theorem from_line_dots : from_line (List.replicate 81 '.') = some allOpen := by
  obtain ⟨g, hg, hcells⟩ := from_line_ok (show lineOk (List.replicate 81 '.') by decide)
  have hga : g = allOpen := by
    apply Sudoku.ext_cells
    intro rf cf
    have hj : 9 * (rf : Nat) + (cf : Nat) < 81 := by omega
    have h := hcells (9 * (rf : Nat) + (cf : Nat)) hj
    have hr : (9 * (rf : Nat) + (cf : Nat)) / 9 = (rf : Nat) := by omega
    have hc : (9 * (rf : Nat) + (cf : Nat)) % 9 = (cf : Nat) := by omega
    rw [hr, hc, cellAt_of_fin] at h
    rw [h]
    have hch : (List.replicate 81 '.').getD (9 * (rf : Nat) + (cf : Nat)) '.' = '.' := by
      rw [List.getD_eq_getElem?_getD, List.getElem?_replicate, if_pos hj]
      rfl
    rw [hch]
    rfl
  rw [hg, hga]

theorem reach_wf {stack0 : List Sudoku} (h0 : ∀ m ∈ stack0, m.wf) :
    ∀ {stack : List Sudoku}, ReachStack stack0 stack → ∀ m ∈ stack, m.wf := by
  intro stack hreach
  induction hreach with
  | init => exact h0
  | prune hr hfx ih =>
    intro m hm
    exact ih m (List.mem_cons_of_mem _ hm)
  | yield hr hfx hsol ih =>
    intro m hm
    exact ih m (List.mem_cons_of_mem _ hm)
  | branch hr hfx hsol hbc ih =>
    rename_i g2 s2 rest2 r2 c2 cell2
    intro m hm
    have hg2wf : g2.wf := ih g2 (List.mem_cons_self _ _)
    obtain ⟨_, hfwf, hewf, _⟩ := children_stack_lt rest2 hg2wf hfx hbc
    rcases List.mem_cons.mp hm with rfl | hm2
    · exact hfwf
    · rcases List.mem_cons.mp hm2 with rfl | hm3
      · exact hewf
      · exact ih m (List.mem_cons_of_mem _ hm3)

theorem nextFuel_reach {stack0 : List Sudoku} :
    ∀ {fuel : Nat} {stack : List Sudoku} {s : Sudoku} {rest : List Sudoku},
      ReachStack stack0 stack → nextFuel fuel stack = some (some (s, rest)) →
      ReachStack stack0 rest := by
  intro fuel
  induction fuel with
  | zero =>
    intro stack s rest _ h
    cases h
  | succ fuel ih =>
    intro stack s rest hreach h
    cases stack with
    | nil =>
      have h2 : (none : Option (Sudoku × List Sudoku)) = some (s, rest) :=
        Option.some.inj h
      cases h2
    | cons g2 tail =>
      cases hfx : fixpoint g2 with
      | none =>
        rw [nextFuel_cons_prune hfx] at h
        exact ih (ReachStack.prune hreach hfx) h
      | some s2 =>
        cases hsol : is_solved s2 with
        | true =>
          rw [nextFuel_cons_yield hfx hsol] at h
          have h2 : ((s2, tail) : Sudoku × List Sudoku) = (s, rest) :=
            Option.some.inj (Option.some.inj h)
          cases h2
          exact ReachStack.yield hreach hfx hsol
        | false =>
          cases hbc : branchCell s2 with
          | none =>
            rw [nextFuel_cons_nobranch hfx hsol hbc] at h
            have h2 : (none : Option (Sudoku × List Sudoku)) = some (s, rest) :=
              Option.some.inj h
            cases h2
          | some m0 =>
            obtain ⟨r, c, cell⟩ := m0
            rw [nextFuel_cons_branch hfx hsol hbc] at h
            exact ih (ReachStack.branch hreach hfx hsol hbc) h

theorem branch_safe {m s : Sudoku} (hwf : m.wf) (hfx : fixpoint m = some s)
    (hns : is_solved s = false) :
    (branchCell s).isSome = true ∧
      ∀ r c cell, branchCell s = some (r, c, cell) →
        1 ≤ cell.len ∧ (Cell.from_digit cell.first_digit).isSome = true := by
  have hswf : s.wf := wf_of_sub (fixpoint_spec hfx).1 hwf
  refine ⟨branchCell_isSome (fixed_not_solved_branch hswf (fixpoint_spec hfx).2 hns),
    fun r c cell hbc => ?_⟩
  obtain ⟨hcell, hr9, hc9, hlen, _⟩ := branchCell_spec hbc
  simp only at hcell hr9 hc9 hlen
  have hnz : cell.digits ≠ 0 := by
    intro h0
    rw [← len_zero_iff] at h0
    omega
  have hfd := (first_digit_spec hnz).1
  have hfd19 : 1 ≤ cell.first_digit ∧ cell.first_digit ≤ 9 := by
    apply wf_iff.mp _ _ hfd
    rw [hcell]
    exact hswf _ _
  obtain ⟨cl, hcl, _⟩ := from_digit_eq_some hfd19.1 hfd19.2
  refine ⟨by omega, ?_⟩
  rw [hcl]
  rfl

/-! ### The claims. -/

/-- C1: every grid yielded by `solutions g` is solved and agrees with `g` at
every position where `g` held a singleton, so the original clues appear
unchanged in every yielded solution. -/
theorem c1_solver_soundness (g : Sudoku) :
    (solutions g).Forall (fun s => is_solved s = true ∧
      ∀ r c : Nat, (cellAt g r c).len = 1 → cellAt s r c = cellAt g r c) := by
  rw [List.forall_iff_forall_mem]
  intro s hmem
  rw [solutions] at hmem
  cases hout : solutionsFuel (stackMeasure [g] + 1) [g] with
  | none =>
    rw [hout] at hmem
    cases hmem
  | some out =>
    rw [hout] at hmem
    have hmem2 : s ∈ out := hmem
    obtain ⟨hsol, hsub⟩ := @solutionsFuel_sound g (stackMeasure [g] + 1) [g] out hout
      (by
        intro m hm
        rw [List.mem_singleton] at hm
        rw [hm]
        exact GridSub.refl g)
      s hmem2
    refine ⟨hsol, fun r c hlen1 => ?_⟩
    have hsl : (cellAt s r c).len = 1 := solved_len1 hsol r c
    apply Cell.ext_mask
    apply Finset.eq_of_subset_of_card_le
    · exact hsub (fin9 r) (fin9 c)
    · rw [← len_eq_card, ← len_eq_card]
      omega

/-- C2: the search always terminates within its fuel bounds — the inner
propagation loop settles within `totalLen g2 + 1` rounds on every grid, one
`next()` call settles within `stackMeasure stack + 1` loop iterations, and
draining the whole iterator from a well-formed start succeeds, so the
produced sequence is finite. -/
theorem c2_termination (g : Sudoku) (hwf : g.wf) :
    (∀ g2 : Sudoku, ∃ r, simplify_loop (totalLen g2 + 1) g2 = some r) ∧
      (∃ r, nextFuel (stackMeasure [g] + 1) [g] = some r) ∧
      ∃ out, solutionsFuel (stackMeasure [g] + 1) [g] = some out := by
  have hwfs : ∀ m ∈ [g], m.wf := by
    intro m hm
    rw [List.mem_singleton] at hm
    rw [hm]
    exact hwf
  refine ⟨?_, ?_, ?_⟩
  · intro g2
    exact Option.ne_none_iff_exists'.mp (simplify_loop_adequate (totalLen g2 + 1) g2 (by omega))
  · exact Option.ne_none_iff_exists'.mp (nextFuel_adequate _ [g] (by omega) hwfs)
  · exact Option.ne_none_iff_exists'.mp (solutionsFuel_adequate _ [g] (by omega) hwfs)

theorem c2_termination_witness :
    allOpen.wf ∧
      ∃ out, solutionsFuel (stackMeasure [allOpen] + 1) [allOpen] = some out :=
  ⟨allOpen_wf, (c2_termination allOpen allOpen_wf).2.2⟩

/-- C3: enumerating the solutions of a grid parsed from a well-formed line
never triggers a panic: every pending grid on every stack the enumeration
reaches is well-formed, and whenever the branching step runs on such a
stack (the popped grid's propagation reached a fixpoint that is not solved)
the `min_by_key` selection finds a cell, the selected cell has cardinality
at least 1 (guarding its `first_digit` call), and the
`Cell::from_digit(d).unwrap()` building the fixed child succeeds. -/
theorem c3_no_panic {line : List Char} {g : Sudoku}
    (hline : from_line line = some g) :
    ∀ stack : List Sudoku, ReachStack [g] stack →
      (∀ m ∈ stack, m.wf) ∧
      ∀ m rest s, stack = m :: rest → fixpoint m = some s → is_solved s = false →
        (branchCell s).isSome = true ∧
        ∀ r c cell, branchCell s = some (r, c, cell) →
          1 ≤ cell.len ∧ (Cell.from_digit cell.first_digit).isSome = true := by
  have hgwf : g.wf := from_line_wf hline
  have h0 : ∀ m ∈ [g], m.wf := by
    intro m hm
    rw [List.mem_singleton] at hm
    rw [hm]
    exact hgwf
  intro stack hreach
  have hwf := reach_wf h0 hreach
  refine ⟨hwf, fun m rest s hstack hfx hns => ?_⟩
  have hmwf : m.wf := hwf m (by rw [hstack]; exact List.mem_cons_self _ _)
  exact branch_safe hmwf hfx hns

theorem c3_no_panic_witness :
    from_line (List.replicate 81 '.') = some allOpen ∧
      is_solved allOpen = false ∧
      ((branchCell allOpen).isSome = true ∧
        ∀ r c cell, branchCell allOpen = some (r, c, cell) →
          1 ≤ cell.len ∧ (Cell.from_digit cell.first_digit).isSome = true) :=
  ⟨from_line_dots, by decide,
    (c3_no_panic from_line_dots [allOpen] ReachStack.init).2 allOpen [] allOpen rfl
      allOpen_fixpoint (by decide)⟩

/-- C4: at a branching step the chosen cell is the first one in row-major
order among the cells of cardinality above 1 having minimal cardinality, and
the step pushes the excluded child below the fixed child, so the fixed child
is popped and explored next. -/
theorem c4_branching {g s : Sudoku} {r c : Nat} {cell : Cell} (fuel : Nat)
    (rest : List Sudoku) (hfx : fixpoint g = some s) (hns : is_solved s = false)
    (hbc : branchCell s = some (r, c, cell)) :
    (cell = cellAt s r c ∧ r < 9 ∧ c < 9 ∧ 1 < cell.len ∧
      ∀ r2 c2 : Nat, r2 < 9 → c2 < 9 → 1 < (cellAt s r2 c2).len →
        cell.len ≤ (cellAt s r2 c2).len ∧
          ((cellAt s r2 c2).len = cell.len → 9 * r + c ≤ 9 * r2 + c2)) ∧
      nextFuel (fuel + 1) (g :: rest) =
        nextFuel fuel (fixedChild s r c cell :: excludedChild s r c cell :: rest) := by
  constructor
  · have h := branchCell_spec hbc
    simpa using h
  · exact nextFuel_cons_branch hfx hns hbc

set_option maxRecDepth 100000 in
theorem c4_branching_witness :
    nextFuel (0 + 1) (allOpen :: []) =
      nextFuel 0 (fixedChild allOpen 0 0 Cell.all_digits ::
        excludedChild allOpen 0 0 Cell.all_digits :: []) :=
  (c4_branching 0 [] allOpen_fixpoint (by decide) (by decide)).2

/-- C5: on a non-empty cell whose mask only carries digits 1–9,
`first_digit` returns the highest digit present: it lies in 1–9, it is a
member, and every member is at most it. -/
theorem c5_first_digit {c : Cell} (hwf : c.wf) (hne : c.len ≠ 0) :
    (1 ≤ c.first_digit ∧ c.first_digit ≤ 9) ∧
      c.has_digit c.first_digit = true ∧
      ∀ d, c.has_digit d = true → d ≤ c.first_digit := by
  have hnz : c.digits ≠ 0 := fun h0 => hne (len_zero_iff.mpr h0)
  obtain ⟨hmem, hmax⟩ := first_digit_spec hnz
  refine ⟨wf_iff.mp hwf _ hmem, ?_, ?_⟩
  · rw [has_digit_iff]
    exact hmem
  · intro d hd
    exact hmax d (has_digit_iff.mp hd)

theorem c5_first_digit_witness :
    Cell.all_digits.wf ∧ Cell.all_digits.len ≠ 0 ∧
      ((1 ≤ Cell.all_digits.first_digit ∧ Cell.all_digits.first_digit ≤ 9) ∧
        Cell.all_digits.has_digit Cell.all_digits.first_digit = true ∧
        ∀ d, Cell.all_digits.has_digit d = true → d ≤ Cell.all_digits.first_digit) :=
  ⟨⟨by decide, by decide⟩, by decide,
    c5_first_digit ⟨by decide, by decide⟩ (by decide)⟩

/-- C6: `from_line` accepts exactly the 81-character lines made of dots and
the digits 1–9 (code points 49–57), and on acceptance the cell at row-major
index `j` decodes its character: the full domain for a dot, the singleton of
the digit otherwise; every other length or character yields no value. -/
theorem c6_parse (line : List Char) :
    ((from_line line).isSome = true ↔ lineOk line) ∧
      ∀ g, from_line line = some g → ∀ j, j < 81 →
        cellAt g (j / 9) (j % 9) = specCellOf (line.getD j '.') := by
  constructor
  · constructor
    · intro hsome
      obtain ⟨g, hg⟩ := Option.isSome_iff_exists.mp hsome
      exact from_line_lineOk hg
    · intro hok
      obtain ⟨g, hg, _⟩ := from_line_ok hok
      rw [hg]
      rfl
  · intro g hg j hj
    obtain ⟨g2, hg2, hcells⟩ := from_line_ok (from_line_lineOk hg)
    have hgg : g2 = g := Option.some.inj (hg2.symm.trans hg)
    subst hgg
    exact hcells j hj

theorem c6_parse_witness :
    (from_line solvedLine).isSome = true ∧
      cellAt solvedGrid 0 0 = specCellOf (solvedLine.getD 0 '.') :=
  ⟨(c6_parse solvedLine).1.mpr (by decide),
    (c6_parse solvedLine).2 solvedGrid from_line_solvedLine 0 (by decide)⟩

/-- C7: with a permutation of the 81 positions as the shuffle result and
in-range random draws, `generate_solvable` returns no value exactly when
more than 81 free cells are requested; otherwise it returns a grid with
exactly `free_cells` non-singleton cells, each reset to the full domain, and
`first_solution` on that grid yields a solved grid. -/
theorem c7_generate (perm : List Nat) (picks : Nat → Nat) (free_cells : Nat)
    (hperm : perm.Perm (List.range 81))
    (hpicks : ∀ i, i < free_cells → picks i < 81 - i) :
    (generate_solvable perm picks free_cells = none ↔ 81 < free_cells) ∧
      (free_cells ≤ 81 →
        ∃ g, generate_solvable perm picks free_cells = some g ∧
          ((Finset.range 81).filter
            (fun j => (cellAt g (j / 9) (j % 9)).len ≠ 1)).card = free_cells ∧
          (∀ j, j < 81 → (cellAt g (j / 9) (j % 9)).len ≠ 1 →
            cellAt g (j / 9) (j % 9) = Cell.all_digits) ∧
          ∃ s, first_solution g = some s ∧ is_solved s = true) := by
  constructor
  · constructor
    · intro hnone
      by_contra hle
      push_neg at hle
      obtain ⟨g, hg, _⟩ := generate_spec hperm hpicks (by omega)
      rw [hg] at hnone
      cases hnone
    · intro hgt
      rw [generate_solvable, if_pos hgt]
  · intro hle
    exact generate_spec hperm hpicks hle

theorem c7_generate_witness :
    (List.range 81).Perm (List.range 81) ∧
      (generate_solvable (List.range 81) (fun _ => 0) 1 = none ↔ 81 < 1) :=
  ⟨List.Perm.refl _,
    (c7_generate (List.range 81) (fun _ => 0) 1 (List.Perm.refl _) (by decide)).1⟩

/-- C8: serializing a fully solved grid and parsing the result returns the
very same grid. -/
theorem c8_round_trip {g : Sudoku} (hs : is_solved g = true) :
    from_line (to_line g) = some g :=
  to_line_from_line hs

theorem c8_round_trip_witness :
    is_solved solvedGrid = true ∧ from_line (to_line solvedGrid) = some solvedGrid :=
  ⟨by decide, c8_round_trip (by decide)⟩

/-- C9: a fixpoint of the propagation loop is genuinely idempotent — if the
loop settles on `s`, another `simplified` pass returns `s` with no change
flagged, and running the whole fixpoint loop again from `s` returns `s`
itself. -/
theorem c9_idempotence {g s : Sudoku} (hfx : fixpoint g = some s) :
    simplified s = some (s, false) ∧ fixpoint s = some s := by
  have h := (fixpoint_spec hfx).2
  exact ⟨h, fixpoint_of_fixed h⟩

theorem c9_idempotence_witness :
    simplified allOpen = some (allOpen, false) ∧ fixpoint allOpen = some allOpen :=
  c9_idempotence allOpen_fixpoint

/-- C10: a grid that is already solved is yielded unchanged by the very
first `next()` call, and is the first element of its solution sequence. -/
theorem c10_solved_first {g : Sudoku} (hs : is_solved g = true) :
    next_solution [g] = some (g, []) ∧ (solutions g).head? = some g := by
  refine ⟨next_solution_solved hs, ?_⟩
  rw [solutions_solved hs]
  rfl

theorem c10_solved_first_witness :
    is_solved solvedGrid = true ∧
      next_solution [solvedGrid] = some (solvedGrid, []) :=
  ⟨by decide, (c10_solved_first (by decide)).1⟩

end SudokuRs
